import Mathlib

/-!
Verification of the flat, index-based binary search tree `flat::bst<T, Compare, IndexT>`
(`src/unnamed/part_002`, the generational-handle variant with `IndexT = uint32`,
`Compare` = the linear order on `α`).

Embedding conventions:
* `std::vector<Slot>` is a `List (Slot α)`; raw-index links (`left`, `right`,
  `root_idx_`, `free_head_`) use `Option Nat`, with `none` standing for the
  reserved raw sentinel `npos_raw`.
* Machine integers are `Nat` with an explicit `% 2 ^ 32` where the source's
  `uint32` arithmetic can wrap (handle packing, generation bump).
* Loops of the source (`find_internal_raw`, the successor descent of
  `erase_internal`, the insert descent, the traversal stacks) terminate in C++
  only because a well-formed tree is acyclic; they are embedded with an explicit
  fuel argument and return `none` when the fuel runs out, which models the
  non-termination the C++ loop would exhibit on a corrupted arena.
* Exceptions (`std::length_error` on capacity, a throwing move construction)
  are `Except` results; the error value carries the arena state after the
  source's `catch` handler ran, so exception-safety claims are statable.
* A `Slot`'s storage bytes survive `destroy_value` (only the lifetime of the
  `T` ends), so `val` keeps its last constructed value when a slot is freed;
  no claim reads the value of a freed slot.
-/

set_option linter.unusedVariables false

namespace FlatBst

/-! ### index_layout<uint32> : 20 index bits, 12 generation bits -/

def total_bits : Nat := 32
def gen_bits : Nat := 12
def idx_bits : Nat := total_bits - gen_bits

/-- `(~IndexT(0)) >> gen_bits` -/
def idx_mask : Nat := 2 ^ idx_bits - 1

/-- `std::numeric_limits<index_type>::max()` : the public handle sentinel. -/
def npos : Nat := 2 ^ total_bits - 1

/-- `Layout::idx_mask` : the reserved raw-index sentinel. -/
def npos_raw : Nat := idx_mask

/-- `handle & idx_mask` (bitwise and with a low mask is mod). -/
def unpack_index (h : Nat) : Nat := h % 2 ^ idx_bits

/-- `handle >> idx_bits` on a `uint32` handle; the `% 2 ^ gen_bits`
normalisation is the identity for every handle below `2 ^ 32`. -/
def unpack_gen (h : Nat) : Nat := h / 2 ^ idx_bits % 2 ^ gen_bits

/-- `(gen << idx_bits) | (idx & idx_mask)` in `uint32` arithmetic: the shifted
generation keeps only its low `gen_bits` bits, and the bitwise or of the two
disjoint bit ranges is addition. -/
def pack (idx gen : Nat) : Nat := gen % 2 ^ gen_bits * 2 ^ idx_bits + idx % 2 ^ idx_bits

/-! ### Slot and tree state -/

structure Slot (α : Type) where
  generation : Nat
  left : Option Nat
  right : Option Nat
  val : α
deriving DecidableEq

/-- `Even = Alive, Odd = Free.` -/
def Slot.is_alive (sl : Slot α) : Bool := sl.generation % 2 == 0

structure bst (α : Type) where
  slots : List (Slot α)
  root_idx : Option Nat
  free_head : Option Nat
  alive_count : Nat
deriving DecidableEq

/-- A default-constructed `bst`. -/
def empty_bst : bst α :=
  { slots := [], root_idx := none, free_head := none, alive_count := 0 }

/-- `slots_[i]`; reading out of bounds is undefined behaviour in the source,
the junk default below is never relevant to a claim. -/
def slotAt [Inhabited α] (ls : List (Slot α)) (i : Nat) : Slot α :=
  ls.getD i { generation := 1, left := none, right := none, val := default }

/-- `make_handle(raw_idx)` : pack the slot's current generation with its index. -/
def make_handle [Inhabited α] (s : bst α) (raw : Nat) : Nat :=
  pack raw (slotAt s.slots raw).generation

/-- `is_handle_valid(handle)`. -/
def is_handle_valid [Inhabited α] (s : bst α) (h : Nat) : Bool :=
  if h == npos then false
  else
    let idx := unpack_index h
    let gen := unpack_gen h
    if s.slots.length ≤ idx then false
    else (slotAt s.slots idx).generation == gen && (slotAt s.slots idx).is_alive

/-! ### Slot arena: allocate_node / free_node -/

inductive AllocErr
  | capacity
  | construct
deriving DecidableEq

instance {ε β : Type} [DecidableEq ε] [DecidableEq β] : DecidableEq (Except ε β) := fun a b =>
  match a, b with
  | .error x, .error y =>
    if h : x = y then .isTrue (congrArg Except.error h)
    else .isFalse fun he => h (Except.error.inj he)
  | .error _, .ok _ => .isFalse fun he => Except.noConfusion he
  | .ok _, .error _ => .isFalse fun he => Except.noConfusion he
  | .ok x, .ok y =>
    if h : x = y then .isTrue (congrArg Except.ok h)
    else .isFalse fun he => h (Except.ok.inj he)

/-- `allocate_node(v)`. `construct_ok` tells whether constructing/moving the
value into the slot succeeds; `false` models a throwing move constructor of
`T`. An `Except.error` carries the state after the corresponding `catch`
handler (or, for the capacity `throw`, the untouched state). -/
def allocate_node [Inhabited α] (s : bst α) (v : α) (construct_ok : Bool) :
    Except (AllocErr × bst α) (bst α × Nat) :=
  match s.free_head with
  | some idx =>
    let sl := slotAt s.slots idx
    let fh := sl.right
    if construct_ok then
      .ok ({ s with
              slots := s.slots.set idx
                { generation := (sl.generation + 1) % 2 ^ total_bits,
                  left := none, right := none, val := v },
              free_head := fh,
              alive_count := s.alive_count + 1 }, idx)
    else
      .error (.construct,
        { s with slots := s.slots.set idx { sl with right := fh },
                 free_head := some idx })
  | none =>
    let idx := s.slots.length
    if npos_raw ≤ idx then .error (.capacity, s)
    else if construct_ok then
      .ok ({ s with
              slots := s.slots ++ [{ generation := 2, left := none, right := none, val := v }],
              alive_count := s.alive_count + 1 }, idx)
    else
      .error (.construct,
        { s with slots :=
            (s.slots ++
              [({ generation := 1, left := none, right := none, val := v } : Slot α)]).dropLast })

/-- `free_node(idx)` : destroy the value (the storage bytes stay), bump the
generation, push the slot on the free list. -/
def free_node [Inhabited α] (s : bst α) (idx : Nat) : bst α :=
  let sl := slotAt s.slots idx
  { s with
      slots := s.slots.set idx
        { generation := (sl.generation + 1) % 2 ^ total_bits,
          left := none, right := s.free_head, val := sl.val },
      free_head := some idx,
      alive_count := s.alive_count - 1 }

/-! ### Search -/

/-- The loop of `find_internal_raw`, with fuel. -/
def find_loop [LinearOrder α] [Inhabited α] (ls : List (Slot α)) (key : α) :
    Nat → Option Nat → Option Nat → Option (Option Nat × Option Nat)
  | _, _, none => some (none, none)
  | 0, _, some _ => none
  | fuel + 1, parent, some cur =>
    let sl := slotAt ls cur
    if key < sl.val then find_loop ls key fuel (some cur) sl.left
    else if sl.val < key then find_loop ls key fuel (some cur) sl.right
    else some (parent, some cur)

/-- `find_internal_raw(key)` : `{parent, cur}` of the matching node, or
`{npos_raw, npos_raw}` when absent. -/
def find_internal_raw [LinearOrder α] [Inhabited α] (s : bst α) (key : α) :
    Option (Option Nat × Option Nat) :=
  find_loop s.slots key (s.slots.length + 1) none s.root_idx

/-- `find_index(key)` : the public handle, `npos` when absent. -/
def find_index [LinearOrder α] [Inhabited α] (s : bst α) (key : α) : Option Nat :=
  (find_internal_raw s key).map fun pc =>
    match pc.2 with
    | none => npos
    | some raw => make_handle s raw

/-- `contains(key)`. -/
def bst_contains [LinearOrder α] [Inhabited α] (s : bst α) (key : α) : Option Bool :=
  (find_internal_raw s key).map fun pc => pc.2.isSome

/-! ### Erase -/

/-- `relink_child(parent, old_child, new_child)`; the `assert(false)` branch
(the parent does not point at `old_child`) is a no-op here. -/
def relink_child [Inhabited α] (s : bst α) (parent : Option Nat)
    (old_child new_child : Option Nat) : bst α :=
  match parent with
  | none => { s with root_idx := new_child }
  | some p =>
    let sl := slotAt s.slots p
    if sl.left == old_child then
      { s with slots := s.slots.set p { sl with left := new_child } }
    else if sl.right == old_child then
      { s with slots := s.slots.set p { sl with right := new_child } }
    else s

/-- The successor descent of `erase_internal` (leftmost node of the right
subtree, tracking its parent), with fuel. -/
def succ_loop [Inhabited α] (ls : List (Slot α)) :
    Nat → Nat → Nat → Option (Nat × Nat)
  | 0, _, _ => none
  | fuel + 1, sp, sc =>
    match (slotAt ls sc).left with
    | none => some (sp, sc)
    | some l => succ_loop ls fuel sc l

/-- `erase_internal(parent, cur)`. -/
def erase_internal [LinearOrder α] [Inhabited α] (s : bst α)
    (parent : Option Nat) (cur : Nat) : Option (bst α) :=
  let n := slotAt s.slots cur
  match n.left, n.right with
  | none, none =>
    some (free_node (relink_child s parent (some cur) none) cur)
  | some child, none =>
    some (free_node (relink_child s parent (some cur) (some child)) cur)
  | none, some child =>
    some (free_node (relink_child s parent (some cur) (some child)) cur)
  | some _, some rc =>
    match succ_loop s.slots (s.slots.length + 1) cur rc with
    | none => none
    | some (sp, sc) =>
      let s1 : bst α :=
        { s with slots := s.slots.set cur { n with val := (slotAt s.slots sc).val } }
      let s2 := relink_child s1 (some sp) (some sc) (slotAt s1.slots sc).right
      some (free_node s2 sc)

/-- `erase(key)` : `some (new state, erased?)`, `none` on a diverging loop. -/
def erase [LinearOrder α] [Inhabited α] (s : bst α) (key : α) :
    Option (bst α × Bool) :=
  match find_internal_raw s key with
  | none => none
  | some (_, none) => some (s, false)
  | some (parent, some cur) => (erase_internal s parent cur).map fun s' => (s', true)

/-- The raw slot index an `erase key` frees: the key's own node when it has
fewer than two children, the inorder successor's otherwise. Used to state
handle-stability claims. -/
def erase_freed_idx [LinearOrder α] [Inhabited α] (s : bst α) (key : α) : Option Nat :=
  match find_internal_raw s key with
  | some (_, some cur) =>
    let n := slotAt s.slots cur
    match n.left, n.right with
    | some _, some rc => (succ_loop s.slots (s.slots.length + 1) cur rc).map fun pr => pr.2
    | _, _ => some cur
  | _ => none

/-! ### Insert -/

/-- The descent loop of `insert_impl`, with fuel: returns
`(parent, go_left, found)` where `found = some cur` signals the duplicate. -/
def insert_find_loop [LinearOrder α] [Inhabited α] (ls : List (Slot α)) (v : α) :
    Nat → Option Nat → Bool → Option Nat → Option (Option Nat × Bool × Option Nat)
  | _, parent, go_left, none => some (parent, go_left, none)
  | 0, _, _, some _ => none
  | fuel + 1, parent, go_left, some cur =>
    let sl := slotAt ls cur
    if v < sl.val then insert_find_loop ls v fuel (some cur) true sl.left
    else if sl.val < v then insert_find_loop ls v fuel (some cur) false sl.right
    else some (parent, go_left, some cur)

/-- `insert_impl(v)` : `some (.ok (state, handle, inserted))` normally, an
allocation error otherwise, outer `none` on a diverging descent (including
the source's out-of-bounds `slots_[npos_raw]` access that a corrupt descent
would commit). Value construction is assumed non-throwing here (`Int` keys in
every claim); the throwing path is analysed at `allocate_node` itself. -/
def insert_impl [LinearOrder α] [Inhabited α] (s : bst α) (v : α) :
    Option (Except (AllocErr × bst α) (bst α × Nat × Bool)) :=
  match s.root_idx with
  | none =>
    some (match allocate_node s v true with
      | .error e => .error e
      | .ok (s1, idx) =>
        .ok ({ s1 with root_idx := some idx }, make_handle s1 idx, true))
  | some r =>
    match insert_find_loop s.slots v (s.slots.length + 1) none false (some r) with
    | none => none
    | some (_, _, some cur) => some (.ok (s, make_handle s cur, false))
    | some (none, _, none) => none
    | some (some p, go_left, none) =>
      some (match allocate_node s v true with
        | .error e => .error e
        | .ok (s1, idx) =>
          let sl := slotAt s1.slots p
          let s2 :=
            if go_left then { s1 with slots := s1.slots.set p { sl with left := some idx } }
            else { s1 with slots := s1.slots.set p { sl with right := some idx } }
          .ok (s2, make_handle s2 idx, true))

/-- A sequence of single-element inserts starting from a given state, as the
tests drive the container; `none` when an insert fails or diverges. -/
def insertList [LinearOrder α] [Inhabited α] : bst α → List α → Option (bst α)
  | s, [] => some s
  | s, v :: vs =>
    match insert_impl s v with
    | some (.ok (s', _, _)) => insertList s' vs
    | _ => none

/-! ### Traversals -/

/-- The explicit-stack inorder loop of `bst::inorder`, with fuel. Each step is
either one push of the inner `while` or one pop-and-visit of the outer loop. -/
def inorder_loop [Inhabited α] (ls : List (Slot α)) :
    Nat → List Nat → Option Nat → List α → Option (List α)
  | _, [], none, acc => some acc
  | 0, _ :: _, none, _ => none
  | 0, _, some _, _ => none
  | fuel + 1, stack, some i, acc => inorder_loop ls fuel (i :: stack) (slotAt ls i).left acc
  | fuel + 1, i :: stack, none, acc =>
    inorder_loop ls fuel stack (slotAt ls i).right (acc ++ [(slotAt ls i).val])

/-- `inorder(f)` observed as the visited value sequence. -/
def inorder [Inhabited α] (s : bst α) : Option (List α) :=
  inorder_loop s.slots (2 * s.slots.length + 1) [] s.root_idx []

/-- The explicit-stack preorder loop of `bst::preorder`, with fuel. -/
def preorder_loop [Inhabited α] (ls : List (Slot α)) :
    Nat → List Nat → List α → Option (List α)
  | _, [], acc => some acc
  | 0, _ :: _, _ => none
  | fuel + 1, i :: stack, acc =>
    let sl := slotAt ls i
    let st1 := match sl.right with | none => stack | some r => r :: stack
    let st2 := match sl.left with | none => st1 | some l => l :: st1
    preorder_loop ls fuel st2 (acc ++ [sl.val])

/-- `preorder(f)` observed as the visited value sequence. -/
def preorder [Inhabited α] (s : bst α) : Option (List α) :=
  match s.root_idx with
  | none => some []
  | some r => preorder_loop s.slots (s.slots.length + 1) [r] []

/-! ### Bulk build and rebalance -/

/-- The recursive lambda of `build_from_sorted_unique_into_empty`, on the list
segment `[lo, hi)`: allocate the midpoint, build and link the left half,
build and link the right half. -/
def build_seg [Inhabited α] (s : bst α) :
    List α → Except (AllocErr × bst α) (bst α × Option Nat)
  | [] => .ok (s, none)
  | x :: xs =>
    let l := x :: xs
    let k := l.length / 2
    match allocate_node s (l.getD k x) true with
    | .error e => .error e
    | .ok (s1, me) =>
      match build_seg s1 (l.take k) with
      | .error e => .error e
      | .ok (s2, li) =>
        let sl := slotAt s2.slots me
        let s2' : bst α := { s2 with slots := s2.slots.set me { sl with left := li } }
        match build_seg s2' (l.drop (k + 1)) with
        | .error e => .error e
        | .ok (s3, ri) =>
          let sl3 := slotAt s3.slots me
          .ok ({ s3 with slots := s3.slots.set me { sl3 with right := ri } }, some me)
termination_by l => l.length
decreasing_by
  · simp [List.length_take]
    omega
  · simp [List.length_drop]
    omega

/-- `build_from_sorted_unique_into_empty(first, last)`. -/
def build_from_sorted_unique_into_empty [Inhabited α] (s : bst α) (l : List α) :
    Except (AllocErr × bst α) (bst α) :=
  match l with
  | [] => .ok { s with root_idx := none }
  | _ :: _ =>
    match build_seg s l with
    | .error e => .error e
    | .ok (s', me) => .ok { s' with root_idx := me }

/-- `rebalance()` : no-op below 2 live elements, otherwise dump the inorder
values, build a fresh tree into an empty arena and swap it in (the result
state is the freshly built arena). -/
def rebalance [LinearOrder α] [Inhabited α] (s : bst α) : Option (bst α) :=
  if s.alive_count < 2 then some s
  else
    match inorder s with
    | none => none
    | some vals =>
      match build_from_sorted_unique_into_empty (empty_bst : bst α) vals with
      | .error _ => none
      | .ok t => some t

/-! ### Bound query (not in src; see the doc comment) -/

/-- Modelled from the spec: `lower_bound` is absent from `src/` (only
`test.cpp` calls `lower_bound_handle`); §4.2 specifies it as "implemented by
descent retaining the best (smallest-seen) candidate ≥ key". The loop keeps
the last not-less-than node seen and descends left from it, descends right
past smaller nodes. -/
def lower_bound_loop [LinearOrder α] [Inhabited α] (ls : List (Slot α)) (key : α) :
    Nat → Option Nat → Option Nat → Option (Option Nat)
  | _, best, none => some best
  | 0, _, some _ => none
  | fuel + 1, best, some c =>
    let sl := slotAt ls c
    if sl.val < key then lower_bound_loop ls key fuel best sl.right
    else lower_bound_loop ls key fuel (some c) sl.left

/-- Modelled from the spec: the public `lower_bound_handle(key)` wrapper,
returning a packed handle or `npos`. -/
def lower_bound_handle [LinearOrder α] [Inhabited α] (s : bst α) (key : α) :
    Option Nat :=
  (lower_bound_loop s.slots key (s.slots.length + 1) none s.root_idx).map fun best =>
    match best with
    | none => npos
    | some i => make_handle s i

/-! ### Inorder iterator (`flat::detail::inorder_iter`) -/

/-- Iterator state: the explicit descent stack and the current raw index
(`npos_raw` = `none` marks the end iterator). `operator==` compares the tree
pointer, `cur_raw_` and `stack_`; both iterators of every claim range over the
same tree, so iterator equality is record equality. -/
structure inorder_iter where
  stack : List Nat
  cur_raw : Option Nat
deriving DecidableEq

/-- `push_left_(i)`, with fuel. -/
def push_left_loop [Inhabited α] (ls : List (Slot α)) :
    Nat → Option Nat → List Nat → Option (List Nat)
  | _, none, st => some st
  | 0, some _, _ => none
  | fuel + 1, some i, st => push_left_loop ls fuel (slotAt ls i).left (i :: st)

/-- `begin_inorder()` (the `inorder_iter(t, false)` constructor). -/
def begin_inorder [Inhabited α] (s : bst α) : Option inorder_iter :=
  if s.alive_count == 0 then some { stack := [], cur_raw := none }
  else
    match push_left_loop s.slots (s.slots.length + 1) s.root_idx [] with
    | none => none
    | some [] => some { stack := [], cur_raw := none }
    | some (i :: st) => some { stack := st, cur_raw := some i }

/-- `end_inorder()` (the `inorder_iter(t, true)` constructor). -/
def end_inorder : inorder_iter := { stack := [], cur_raw := none }

/-! ### Decoding the arena into an inductive tree (verification device) -/

/-- Index-carrying binary trees: the shape the arena's links spell out. -/
inductive ITree (α : Type) where
  | leaf
  | node (l : ITree α) (idx : Nat) (v : α) (r : ITree α)
deriving DecidableEq

def ITree.size : ITree α → Nat
  | .leaf => 0
  | .node l _ _ r => l.size + 1 + r.size

def ITree.height : ITree α → Nat
  | .leaf => 0
  | .node l _ _ r => max l.height r.height + 1

/-- Inorder value sequence. -/
def ITree.valsList : ITree α → List α
  | .leaf => []
  | .node l _ v r => l.valsList ++ v :: r.valsList

/-- Inorder raw-index sequence. -/
def ITree.idxList : ITree α → List Nat
  | .leaf => []
  | .node l i _ r => l.idxList ++ i :: r.idxList

/-- Preorder value sequence. -/
def ITree.preList : ITree α → List α
  | .leaf => []
  | .node l _ v r => v :: (l.preList ++ r.preList)

/-- Executable decoder from the arena links, with fuel. -/
def decode [Inhabited α] (ls : List (Slot α)) : Nat → Option Nat → Option (ITree α)
  | _, none => some .leaf
  | 0, some _ => none
  | fuel + 1, some i => do
    let l ← decode ls fuel (slotAt ls i).left
    let r ← decode ls fuel (slotAt ls i).right
    pure (.node l i (slotAt ls i).val r)

/-- `Models ls oi t` : starting at link `oi`, the arena `ls` spells out the
inductive tree `t`, all of whose nodes are in-bounds and alive. -/
inductive Models [Inhabited α] (ls : List (Slot α)) : Option Nat → ITree α → Prop
  | leaf : Models ls none .leaf
  | node {i : Nat} {v : α} {l r : ITree α} :
      i < ls.length →
      (slotAt ls i).is_alive = true →
      (slotAt ls i).val = v →
      Models ls (slotAt ls i).left l →
      Models ls (slotAt ls i).right r →
      Models ls (some i) (.node l i v r)

/-- The binary-search-tree ordering invariant. -/
inductive ST [LinearOrder α] : ITree α → Prop
  | leaf : ST .leaf
  | node {l r : ITree α} {i : Nat} {v : α} :
      ST l → ST r →
      (∀ x ∈ l.valsList, x < v) →
      (∀ x ∈ r.valsList, v < x) →
      ST (.node l i v r)

/-- The index tree produced by the midpoint recursion of
`build_from_sorted_unique_into_empty`, with `b` the raw index the root is
allocated at (allocation order: root, then left half, then right half). -/
def buildIT [Inhabited α] : List α → Nat → ITree α
  | [], _ => .leaf
  | x :: xs, b =>
    let l := x :: xs
    let k := l.length / 2
    .node (buildIT (l.take k) (b + 1)) b (l.getD k x)
      (buildIT (l.drop (k + 1)) (b + 1 + k))
termination_by l _ => l.length
decreasing_by
  · simp [List.length_take]
    omega
  · simp [List.length_drop]
    omega

/-- Concrete state after inserting 1 into the empty tree (used to exercise
rebalance). -/
def c2s1 : bst Int :=
  { slots := [{ generation := 2, left := none, right := none, val := 1 }],
    root_idx := some 0, free_head := none, alive_count := 1 }

/-- Concrete state after inserting 1, 2, 3 in order into the empty tree: a
degenerate right chain. -/
def c2s3 : bst Int :=
  { slots := [{ generation := 2, left := none, right := some 1, val := 1 },
      { generation := 2, left := none, right := some 2, val := 2 },
      { generation := 2, left := none, right := none, val := 3 }],
    root_idx := some 0, free_head := none, alive_count := 3 }

/-- Concrete two-element arena: root 2 at slot 0 with left child 1 at
slot 1. -/
def c2sW : bst Int :=
  { slots := [{ generation := 2, left := some 1, right := none, val := 2 },
      { generation := 2, left := none, right := none, val := 1 }],
    root_idx := some 0, free_head := none, alive_count := 2 }

/-- The index tree modelled by `c2sW`. -/
def c2tW : ITree Int := .node (.node .leaf 1 1 .leaf) 0 2 .leaf

/-- The algebraic descent of `lower_bound_loop` over the index tree: keep the
last not-less-than node seen, go left from it, go right past smaller nodes. -/
def ITree.lb [LinearOrder α] : ITree α → α → Option Nat → Option Nat
  | .leaf, _, best => best
  | .node l i v r, key, best =>
    if v < key then r.lb key best else l.lb key (some i)

/-- The left-spine index stack accumulated by `push_left_`: the node indices
met while descending left links, leftmost node first. -/
def ITree.lspine : ITree α → List Nat → List Nat
  | .leaf, st => st
  | .node l i _ _, st => l.lspine (i :: st)

/-! ### Basic arena lemmas -/

theorem slotAt_set_eq [Inhabited α] (ls : List (Slot α)) (i : Nat) (x : Slot α)
    (h : i < ls.length) : slotAt (ls.set i x) i = x := by
  induction ls generalizing i with
  | nil => simp at h
  | cons a as ih =>
    cases i with
    | zero => simp [slotAt]
    | succ n => simpa [slotAt, List.getD] using ih n (by simpa using h)

theorem slotAt_set_ne [Inhabited α] (ls : List (Slot α)) (i j : Nat) (x : Slot α)
    (h : i ≠ j) : slotAt (ls.set i x) j = slotAt ls j := by
  induction ls generalizing i j with
  | nil => simp [slotAt]
  | cons a as ih =>
    cases i with
    | zero =>
      cases j with
      | zero => exact absurd rfl h
      | succ m => simp [slotAt, List.getD]
    | succ n =>
      cases j with
      | zero => simp [slotAt, List.getD]
      | succ m => simpa [slotAt, List.getD] using ih n m (by omega)

theorem slotAt_append_left [Inhabited α] (ls xs : List (Slot α)) (j : Nat)
    (h : j < ls.length) : slotAt (ls ++ xs) j = slotAt ls j := by
  induction ls generalizing j with
  | nil => simp at h
  | cons a as ih =>
    cases j with
    | zero => simp [slotAt]
    | succ n => simpa [slotAt, List.getD] using ih n (by simpa using h)

theorem set_slotAt_self [Inhabited α] (ls : List (Slot α)) (i : Nat)
    (h : i < ls.length) : ls.set i (slotAt ls i) = ls := by
  induction ls generalizing i with
  | nil => simp
  | cons a as ih =>
    cases i with
    | zero => simp [slotAt]
    | succ n => simpa [slotAt, List.getD] using ih n (by simpa using h)

theorem unpack_gen_lt (h : Nat) : unpack_gen h < 2 ^ gen_bits :=
  Nat.mod_lt _ (by norm_num [gen_bits])

/-- Characterisation of a passing validity check. -/
theorem is_handle_valid_iff [Inhabited α] (s : bst α) (h : Nat) :
    is_handle_valid s h = true ↔
      h ≠ npos ∧ unpack_index h < s.slots.length ∧
      (slotAt s.slots (unpack_index h)).generation = unpack_gen h ∧
      (slotAt s.slots (unpack_index h)).is_alive = true := by
  unfold is_handle_valid
  by_cases hn : h = npos
  · simp [hn]
  · by_cases hlen : s.slots.length ≤ unpack_index h
    · simp [hn, hlen]
      try omega
    · simp [hn, hlen]
      try omega

/-- Validity only reads the arena length and the slot's generation, so it is
stable under any state change that grows the arena and keeps that slot's
generation. -/
theorem is_handle_valid_mono [Inhabited α] {s s' : bst α} {h : Nat}
    (hlen : s.slots.length ≤ s'.slots.length)
    (hgen : (slotAt s'.slots (unpack_index h)).generation =
      (slotAt s.slots (unpack_index h)).generation) :
    is_handle_valid s h = true → is_handle_valid s' h = true := by
  intro hv
  rcases (is_handle_valid_iff s h).mp hv with ⟨hn, hlt, hg, ha⟩
  refine (is_handle_valid_iff s' h).mpr ⟨hn, by omega, by rw [hgen, hg], ?_⟩
  simpa [Slot.is_alive, hgen] using ha

/-- A failing validity check from a generation mismatch. -/
theorem is_handle_valid_ne_gen [Inhabited α] {s : bst α} {h : Nat}
    (hgen : (slotAt s.slots (unpack_index h)).generation ≠ unpack_gen h) :
    is_handle_valid s h = false := by
  rcases hb : is_handle_valid s h with _ | _
  · rfl
  · exact absurd ((is_handle_valid_iff s h).mp hb).2.2.1 hgen

/-! ### Claim C6 : capacity-exceeded behaviour of `allocate` -/

/-- Claim C6 (counterexample): the claim says `allocate` fails with a
capacity error exactly when the arena has reached `sentinel value − 1`
entries. On an arena of exactly `npos_raw − 1` slots and an empty free list,
`allocate` still succeeds, because the source only refuses once the next
index would be `≥ npos_raw`. -/
theorem C6_counterexample :
    (allocate_node
        { slots := List.replicate (npos_raw - 1)
            ({ generation := 1, left := none, right := none, val := (0 : Int) } : Slot Int),
          root_idx := none, free_head := none, alive_count := 0 }
        (0 : Int) true).isOk = true
    ∧ (List.replicate (npos_raw - 1)
        ({ generation := 1, left := none, right := none, val := (0 : Int) } : Slot Int)).length
      = npos_raw - 1 := by
  constructor
  · have hlt : ¬ npos_raw ≤ npos_raw - 1 := by
      simp [npos_raw, idx_mask, idx_bits, total_bits, gen_bits]
    simp only [allocate_node, List.length_replicate]
    rw [if_neg hlt, if_pos trivial]
    rfl
  · simp

/-- Claim C6 (amended): with an empty free list, `allocate` fails with a
recoverable capacity-exceeded error — leaving the state untouched — exactly
when the arena has reached `npos_raw` (the reserved sentinel value) entries,
i.e. when the next raw index would be at least the sentinel; and every
capacity error carries the unmutated state. -/
theorem C6_allocate_capacity [Inhabited α] (s : bst α) (v : α) (ok : Bool) :
    (allocate_node s v ok = .error (.capacity, s) ↔
      s.free_head = none ∧ npos_raw ≤ s.slots.length)
    ∧ (∀ s' : bst α, allocate_node s v ok = .error (.capacity, s') → s' = s) := by
  unfold allocate_node
  rcases hf : s.free_head with _ | j
  · by_cases hcap : npos_raw ≤ s.slots.length
    · simp [hcap]
    · rcases ok with _ | _ <;> simp [hcap]
  · rcases ok with _ | _ <;> simp

/-- Witness for C6: a full arena (`npos_raw` slots, empty free list) makes
`allocate` fail with the capacity error and the untouched state. -/
theorem C6_witness :
    allocate_node
      { slots := List.replicate npos_raw
          ({ generation := 1, left := none, right := none, val := (0 : Int) } : Slot Int),
        root_idx := none, free_head := none, alive_count := 0 }
      (0 : Int) true
    = .error (.capacity,
      { slots := List.replicate npos_raw
          ({ generation := 1, left := none, right := none, val := (0 : Int) } : Slot Int),
        root_idx := none, free_head := none, alive_count := 0 }) :=
  (C6_allocate_capacity _ _ _).1.mpr ⟨rfl, by simp⟩

/-! ### Claim C7 : a throwing construction restores the free list -/

/-- Claim C7: if the free list is non-empty and constructing/moving the value
into the popped slot throws, `allocate_node` propagates the error and the
state after the `catch` handler is exactly the original state: the slot is
back at the free-list head, nothing is leaked, the size is unchanged. -/
theorem C7_alloc_construct_fail_restores [Inhabited α] (s : bst α) (i : Nat) (v : α)
    (hf : s.free_head = some i) (hi : i < s.slots.length) :
    allocate_node s v false = .error (.construct, s) := by
  unfold allocate_node
  rw [hf]
  have hslot : ({ slotAt s.slots i with right := (slotAt s.slots i).right } : Slot α)
      = slotAt s.slots i := rfl
  simp only [hslot, set_slotAt_self s.slots i hi]
  have : ({ s with slots := s.slots, free_head := some i } : bst α) = s := by
    rw [← hf]
  rw [this]
  simp

/-! ### Update lemmas for the state-changing operations -/

theorem list_set_oob {β : Type} (ls : List β) (i : Nat) (x : β)
    (h : ls.length ≤ i) : ls.set i x = ls := by
  induction ls generalizing i with
  | nil => rfl
  | cons a as ih =>
    cases i with
    | zero => simp at h
    | succ n => simpa using ih n (by simpa using h)

theorem slotAt_oob [Inhabited α] (ls : List (Slot α)) (i : Nat)
    (h : ls.length ≤ i) :
    slotAt ls i = { generation := 1, left := none, right := none, val := default } := by
  unfold slotAt
  rw [List.getD_eq_default]
  exact h

/-- Setting a slot that keeps its generation keeps every slot's generation. -/
theorem slotAt_set_gen [Inhabited α] (ls : List (Slot α)) (p j : Nat) (x : Slot α)
    (hx : x.generation = (slotAt ls p).generation) :
    (slotAt (ls.set p x) j).generation = (slotAt ls j).generation := by
  by_cases hpj : p = j
  · subst hpj
    by_cases hp : p < ls.length
    · rw [slotAt_set_eq _ _ _ hp, hx]
    · rw [list_set_oob _ _ _ (by omega)]
  · rw [slotAt_set_ne _ _ _ _ hpj]

/-- Setting a slot that keeps its value keeps every slot's value. -/
theorem slotAt_set_val [Inhabited α] (ls : List (Slot α)) (p j : Nat) (x : Slot α)
    (hx : x.val = (slotAt ls p).val) :
    (slotAt (ls.set p x) j).val = (slotAt ls j).val := by
  by_cases hpj : p = j
  · subst hpj
    by_cases hp : p < ls.length
    · rw [slotAt_set_eq _ _ _ hp, hx]
    · rw [list_set_oob _ _ _ (by omega)]
  · rw [slotAt_set_ne _ _ _ _ hpj]

theorem relink_child_length [Inhabited α] (s : bst α) (parent old_child new_child : Option Nat) :
    (relink_child s parent old_child new_child).slots.length = s.slots.length := by
  unfold relink_child
  rcases parent with _ | p
  · rfl
  · dsimp only
    split
    · simp
    · split
      · simp
      · rfl

theorem relink_child_gen [Inhabited α] (s : bst α) (parent old_child new_child : Option Nat)
    (j : Nat) :
    (slotAt (relink_child s parent old_child new_child).slots j).generation
      = (slotAt s.slots j).generation := by
  unfold relink_child
  rcases parent with _ | p
  · rfl
  · dsimp only
    split
    · exact slotAt_set_gen _ _ _ _ rfl
    · split
      · exact slotAt_set_gen _ _ _ _ rfl
      · rfl

theorem relink_child_val [Inhabited α] (s : bst α) (parent old_child new_child : Option Nat)
    (j : Nat) :
    (slotAt (relink_child s parent old_child new_child).slots j).val
      = (slotAt s.slots j).val := by
  unfold relink_child
  rcases parent with _ | p
  · rfl
  · dsimp only
    split
    · exact slotAt_set_val _ _ _ _ rfl
    · split
      · exact slotAt_set_val _ _ _ _ rfl
      · rfl

theorem relink_child_free_head [Inhabited α] (s : bst α)
    (parent old_child new_child : Option Nat) :
    (relink_child s parent old_child new_child).free_head = s.free_head := by
  unfold relink_child
  rcases parent with _ | p
  · rfl
  · dsimp only
    split
    · rfl
    · split <;> rfl

theorem relink_child_alive_count [Inhabited α] (s : bst α)
    (parent old_child new_child : Option Nat) :
    (relink_child s parent old_child new_child).alive_count = s.alive_count := by
  unfold relink_child
  rcases parent with _ | p
  · rfl
  · dsimp only
    split
    · rfl
    · split <;> rfl

theorem free_node_length [Inhabited α] (s : bst α) (idx : Nat) :
    (free_node s idx).slots.length = s.slots.length := by
  simp [free_node]

theorem free_node_free_head [Inhabited α] (s : bst α) (idx : Nat) :
    (free_node s idx).free_head = some idx := rfl

theorem free_node_alive_count [Inhabited α] (s : bst α) (idx : Nat) :
    (free_node s idx).alive_count = s.alive_count - 1 := rfl

theorem free_node_gen_self [Inhabited α] (s : bst α) (idx : Nat)
    (h : idx < s.slots.length) :
    (slotAt (free_node s idx).slots idx).generation
      = ((slotAt s.slots idx).generation + 1) % 2 ^ total_bits := by
  unfold free_node
  dsimp only
  rw [slotAt_set_eq _ _ _ h]

theorem free_node_gen_ne [Inhabited α] (s : bst α) (idx j : Nat) (h : j ≠ idx) :
    (slotAt (free_node s idx).slots j).generation = (slotAt s.slots j).generation := by
  unfold free_node
  dsimp only
  rw [slotAt_set_ne _ _ _ _ (by omega)]

theorem free_node_val_ne [Inhabited α] (s : bst α) (idx j : Nat) (h : j ≠ idx) :
    (slotAt (free_node s idx).slots j).val = (slotAt s.slots j).val := by
  unfold free_node
  dsimp only
  rw [slotAt_set_ne _ _ _ _ (by omega)]

/-- The reuse path of `allocate_node`, as an equation. -/
theorem allocate_node_reuse [Inhabited α] (s : bst α) (v : α) (j : Nat)
    (hf : s.free_head = some j) :
    allocate_node s v true = .ok ({ s with
      slots := s.slots.set j
        { generation := ((slotAt s.slots j).generation + 1) % 2 ^ total_bits,
          left := none, right := none, val := v },
      free_head := (slotAt s.slots j).right,
      alive_count := s.alive_count + 1 }, j) := by
  unfold allocate_node
  rw [hf]
  rfl

/-- The successor descent only stops at a node without a left child. -/
theorem succ_loop_left_none [Inhabited α] (ls : List (Slot α)) (fuel sp sc p c : Nat)
    (h : succ_loop ls fuel sp sc = some (p, c)) : (slotAt ls c).left = none := by
  induction fuel generalizing sp sc with
  | zero => simp [succ_loop] at h
  | succ n ih =>
    unfold succ_loop at h
    rcases hl : (slotAt ls sc).left with _ | l
    · rw [hl] at h
      simp at h
      rw [← h.2]
      exact hl
    · rw [hl] at h
      exact ih _ _ h

/-- `erase_internal` in the zero- or one-child cases: the erased node's own
slot is freed, its generation is bumped, every other generation survives. -/
theorem erase_internal_one_child_spec [LinearOrder α] [Inhabited α] (s : bst α)
    (parent : Option Nat) (cur : Nat)
    (hch : (slotAt s.slots cur).left = none ∨ (slotAt s.slots cur).right = none) :
    ∃ s', erase_internal s parent cur = some s' ∧
      s'.slots.length = s.slots.length ∧
      s'.free_head = some cur ∧
      (cur < s.slots.length →
        (slotAt s'.slots cur).generation
          = ((slotAt s.slots cur).generation + 1) % 2 ^ total_bits) ∧
      (∀ j, j ≠ cur → (slotAt s'.slots j).generation = (slotAt s.slots j).generation) ∧
      s'.alive_count = s.alive_count - 1 := by
  have hgen : ∀ (p : Option Nat) (oc nc : Option Nat),
      (free_node (relink_child s p oc nc) cur).slots.length = s.slots.length ∧
      (free_node (relink_child s p oc nc) cur).free_head = some cur ∧
      (cur < s.slots.length →
        (slotAt (free_node (relink_child s p oc nc) cur).slots cur).generation
          = ((slotAt s.slots cur).generation + 1) % 2 ^ total_bits) ∧
      (∀ j, j ≠ cur →
        (slotAt (free_node (relink_child s p oc nc) cur).slots j).generation
          = (slotAt s.slots j).generation) ∧
      (free_node (relink_child s p oc nc) cur).alive_count = s.alive_count - 1 := by
    intro p oc nc
    refine ⟨?_, rfl, ?_, ?_, ?_⟩
    · rw [free_node_length, relink_child_length]
    · intro hcur
      rw [free_node_gen_self _ _ (by rw [relink_child_length]; omega),
        relink_child_gen]
    · intro j hj
      rw [free_node_gen_ne _ _ _ hj, relink_child_gen]
    · rw [free_node_alive_count, relink_child_alive_count]
  unfold erase_internal
  rcases hl : (slotAt s.slots cur).left with _ | lc <;>
    rcases hr : (slotAt s.slots cur).right with _ | rc
  · simp only [hl, hr]
    exact ⟨_, rfl, hgen parent (some cur) none⟩
  · simp only [hl, hr]
    exact ⟨_, rfl, hgen parent (some cur) (some rc)⟩
  · simp only [hl, hr]
    exact ⟨_, rfl, hgen parent (some cur) (some lc)⟩
  · rcases hch with hc | hc
    · rw [hl] at hc
      cases hc
    · rw [hr] at hc
      cases hc

/-- `erase_internal` in the two-children case: the successor's slot is freed
and only its generation is bumped. -/
theorem erase_internal_two_children_gen [LinearOrder α] [Inhabited α] (s : bst α)
    (parent : Option Nat) (cur lc rc sp sc : Nat)
    (hl : (slotAt s.slots cur).left = some lc)
    (hr : (slotAt s.slots cur).right = some rc)
    (hsucc : succ_loop s.slots (s.slots.length + 1) cur rc = some (sp, sc)) :
    ∃ s', erase_internal s parent cur = some s' ∧
      s'.slots.length = s.slots.length ∧
      s'.free_head = some sc ∧
      (sc < s.slots.length →
        (slotAt s'.slots sc).generation
          = ((slotAt s.slots sc).generation + 1) % 2 ^ total_bits) ∧
      (∀ j, j ≠ sc → (slotAt s'.slots j).generation = (slotAt s.slots j).generation) ∧
      s'.alive_count = s.alive_count - 1 := by
  unfold erase_internal
  simp only [hl, hr, hsucc]
  have hgenx : ∀ j, (slotAt (s.slots.set cur
      { generation := (slotAt s.slots cur).generation, left := some lc, right := some rc,
        val := (slotAt s.slots sc).val }) j).generation = (slotAt s.slots j).generation :=
    fun j => slotAt_set_gen _ _ _ _ rfl
  refine ⟨_, rfl, ?_, rfl, ?_, ?_, ?_⟩
  · rw [free_node_length, relink_child_length]
    simp
  · intro hsclen
    rw [free_node_gen_self _ _ (by rw [relink_child_length]; simpa using hsclen),
      relink_child_gen]
    dsimp only
    rw [hgenx]
  · intro j hj
    rw [free_node_gen_ne _ _ _ hj, relink_child_gen]
    dsimp only
    rw [hgenx]
  · rw [free_node_alive_count, relink_child_alive_count]

/-- What a completed `insert_impl` does to generations: either the duplicate
path left the state alone, or one slot `j` was allocated — the free-list head
(generation bumped) or a fresh appended slot — and every other generation is
unchanged. -/
theorem insert_impl_gen_spec [LinearOrder α] [Inhabited α] (s : bst α) (v : α)
    (s'' : bst α) (hh : Nat) (b : Bool)
    (hres : insert_impl s v = some (.ok (s'', hh, b))) :
    s.slots.length ≤ s''.slots.length ∧
    (s'' = s ∨
      ∃ j, ((s.free_head = some j ∧ s''.slots.length = s.slots.length ∧
              (j < s.slots.length →
                (slotAt s''.slots j).generation
                  = ((slotAt s.slots j).generation + 1) % 2 ^ total_bits))
            ∨ (s.free_head = none ∧ j = s.slots.length)) ∧
        (∀ i, i ≠ j → (slotAt s''.slots i).generation = (slotAt s.slots i).generation)) := by
  have halloc : ∀ s1 idx, allocate_node s v true = .ok (s1, idx) →
      s.slots.length ≤ s1.slots.length ∧
      ((s.free_head = some idx ∧ s1.slots.length = s.slots.length ∧
          (idx < s.slots.length →
            (slotAt s1.slots idx).generation
              = ((slotAt s.slots idx).generation + 1) % 2 ^ total_bits))
        ∨ (s.free_head = none ∧ idx = s.slots.length)) ∧
      (∀ i, i ≠ idx → (slotAt s1.slots i).generation = (slotAt s.slots i).generation) := by
    intro s1 idx ha
    rcases hf : s.free_head with _ | j
    · unfold allocate_node at ha
      rw [hf] at ha
      by_cases hcap : npos_raw ≤ s.slots.length
      · rw [if_pos hcap] at ha
        cases ha
      · rw [if_neg hcap, if_pos (show true = true from rfl)] at ha
        injection ha with ha1
        injection ha1 with ha2 ha3
        subst ha2
        subst ha3
        refine ⟨by simp, .inr ⟨rfl, rfl⟩, ?_⟩
        intro i hi
        by_cases hilen : i < s.slots.length
        · dsimp only
          rw [slotAt_append_left _ _ _ hilen]
        · have h2 := slotAt_oob s.slots i (by omega)
          have h1 := slotAt_oob
            (s.slots ++ [({ generation := 2, left := none, right := none, val := v } : Slot α)])
            i (by simp; omega)
          dsimp only
          rw [h1, h2]
    · rw [allocate_node_reuse s v j hf] at ha
      injection ha with ha1
      injection ha1 with ha2 ha3
      subst ha2
      subst ha3
      refine ⟨by simp, .inl ⟨rfl, by simp, ?_⟩, ?_⟩
      · intro hjlen
        dsimp only
        rw [slotAt_set_eq _ _ _ hjlen]
      · intro i hi
        dsimp only
        rw [slotAt_set_ne _ _ _ _ (by omega)]
  rcases hroot : s.root_idx with _ | r
  · rcases ha : allocate_node s v true with ⟨e⟩ | ⟨s1, idx⟩
    · simp [insert_impl, hroot, ha] at hres
    · simp only [insert_impl, hroot, ha, Option.some.injEq, Except.ok.injEq,
        Prod.mk.injEq] at hres
      obtain ⟨hres2, hres3, hres4⟩ := hres
      rcases halloc s1 idx ha with ⟨hle, hcase, hother⟩
      have hslots : s''.slots = s1.slots := by rw [← hres2]
      constructor
      · rw [hslots]
        exact hle
      · refine .inr ⟨idx, ?_, ?_⟩
        · rw [hslots]
          exact hcase
        · intro i hi
          rw [hslots]
          exact hother i hi
  · rcases hloop : insert_find_loop s.slots v (s.slots.length + 1) none false (some r)
      with _ | ⟨p, gl, found⟩
    · simp [insert_impl, hroot, hloop] at hres
    · rcases found with _ | cur
      · rcases p with _ | p
        · simp [insert_impl, hroot, hloop] at hres
        · rcases ha : allocate_node s v true with ⟨e⟩ | ⟨s1, idx⟩
          · simp [insert_impl, hroot, hloop, ha] at hres
          · simp only [insert_impl, hroot, hloop, ha, Option.some.injEq, Except.ok.injEq,
              Prod.mk.injEq] at hres
            obtain ⟨hres2, hres3, hres4⟩ := hres
            rcases halloc s1 idx ha with ⟨hle, hcase, hother⟩
            have hslots : ∃ x : Slot α, s''.slots = s1.slots.set p x ∧
                x.generation = (slotAt s1.slots p).generation := by
              rcases gl with _ | _
              · rw [if_neg (by simp)] at hres2
                exact ⟨_, congrArg bst.slots hres2.symm, rfl⟩
              · rw [if_pos rfl] at hres2
                exact ⟨_, congrArg bst.slots hres2.symm, rfl⟩
            obtain ⟨x, hx1, hx2⟩ := hslots
            have hlen2 : s''.slots.length = s1.slots.length := by
              rw [hx1, List.length_set]
            have hgen2 : ∀ i, (slotAt s''.slots i).generation
                = (slotAt s1.slots i).generation := by
              intro i
              rw [hx1]
              exact slotAt_set_gen _ _ _ _ hx2
            constructor
            · omega
            · refine .inr ⟨idx, ?_, ?_⟩
              · rcases hcase with ⟨hc1, hc2, hc3⟩ | hc
                · exact .inl ⟨hc1, by omega, fun hlt => by rw [hgen2]; exact hc3 hlt⟩
                · exact .inr hc
              · intro i hi
                rw [hgen2]
                exact hother i hi
      · simp only [insert_impl, hroot, hloop, Option.some.injEq, Except.ok.injEq,
          Prod.mk.injEq] at hres
        obtain ⟨hres2, hres3, hres4⟩ := hres
        rw [← hres2]
        exact ⟨le_refl _, .inl rfl⟩

/-- Witness for C7: a concrete two-slot arena whose free list holds slot 0. -/
theorem C7_witness :
    allocate_node
      { slots := [({ generation := 3, left := none, right := some 1, val := (0 : Int) } : Slot Int),
                  { generation := 5, left := none, right := none, val := 0 }],
        root_idx := none, free_head := some 0, alive_count := 0 }
      (7 : Int) false
    = .error (.construct,
      { slots := [({ generation := 3, left := none, right := some 1, val := (0 : Int) } : Slot Int),
                  { generation := 5, left := none, right := none, val := 0 }],
        root_idx := none, free_head := some 0, alive_count := 0 }) :=
  C7_alloc_construct_fail_restores _ 0 _ rfl (by decide)


/-! ### Claim C3 : handle staleness after erase + slot reuse -/

/-- Claim C3 (counterexample): the claim as stated fails when the erased key's
node has two children. In the tree built by inserting `2, 1, 3`, erasing `2`
frees the *successor's* slot (raw index 2), the next insert reuses exactly
that freed slot — yet the handle that was issued for `2` still passes
`is_handle_valid`, because the two-children erase overwrites the erased
node's value in place and never bumps its generation. -/
theorem C3_counterexample :
    ((insertList (empty_bst) [(2 : Int), 1, 3]).bind fun s0 =>
      (find_index s0 2).bind fun h =>
      (erase s0 2).bind fun pr =>
      (insert_impl pr.1 4).bind fun r =>
        match r with
        | .ok (s2, hh, ins) =>
          some (is_handle_valid s0 h && pr.2 && ins &&
            decide (erase_freed_idx s0 2 = some (unpack_index hh)) &&
            is_handle_valid s2 h)
        | .error _ => none) = some true := by decide

/-- Claim C3 (amended): after `erase k` of a present key `k` *whose node has
fewer than two children* (so that the erase frees that node's own slot),
followed by an insert whose allocation reuses the freed slot, the handle
issued for `k` before the erase tests as invalid, even though the new handle
occupies the same raw slot index. (When the node has two children, the erase
frees the inorder successor's slot instead, and it is the successor's handle
that goes stale — the handle for `k` survives; see C5.) -/
theorem C3_erase_insert_stale_handle [LinearOrder α] [Inhabited α]
    (s s' s'' : bst α) (k v : α) (h hh : Nat) (p : Option Nat) (cur : Nat) (b : Bool)
    (hv : is_handle_valid s h = true)
    (hidx : unpack_index h = cur)
    (hfind : find_internal_raw s k = some (p, some cur))
    (hch : (slotAt s.slots cur).left = none ∨ (slotAt s.slots cur).right = none)
    (herase : erase s k = some (s', true))
    (hins : insert_impl s' v = some (.ok (s'', hh, b)))
    (hreuse : unpack_index hh = cur)
    (hb : b = true) :
    is_handle_valid s'' h = false := by
  obtain ⟨hn, hlt, hg, ha⟩ := (is_handle_valid_iff s h).mp hv
  rw [hidx] at hlt hg ha
  have hgb : unpack_gen h < 2 ^ 12 := by
    simpa [gen_bits] using unpack_gen_lt h
  have e32 : (2 : Nat) ^ total_bits = 4294967296 := by norm_num [total_bits]
  have e12 : (2 : Nat) ^ 12 = 4096 := by norm_num
  -- run the erase down to `erase_internal`
  unfold erase at herase
  rw [hfind] at herase
  obtain ⟨s₁, hei, hpair⟩ := Option.map_eq_some'.mp herase
  have hs1 : s₁ = s' := congrArg Prod.fst hpair
  subst hs1
  obtain ⟨st, hst, hstlen, hstfree, hstgen, hstother, hstcount⟩ :=
    erase_internal_one_child_spec s p cur hch
  rw [hei] at hst
  injection hst with hst
  subst hst
  have hgen1 : (slotAt s₁.slots cur).generation
      = (slotAt s.slots cur).generation + 1 := by
    rw [hstgen hlt, Nat.mod_eq_of_lt (by omega)]
  -- run the insert
  obtain ⟨hle, hcase⟩ := insert_impl_gen_spec s₁ v s'' hh b hins
  have hfinal : (slotAt s''.slots cur).generation
      = (slotAt s.slots cur).generation + 1 ∨
      (slotAt s''.slots cur).generation
      = (slotAt s.slots cur).generation + 2 := by
    rcases hcase with hsame | ⟨j, hj, hother⟩
    · left
      rw [hsame, hgen1]
    · rcases hj with ⟨hjf, hjlen, hjgen⟩ | ⟨hjf, hjlen⟩
      · have hjc : j = cur := by
          rw [hstfree] at hjf
          exact (Option.some.inj hjf).symm
        subst hjc
        right
        rw [hjgen (by omega), hgen1, Nat.mod_eq_of_lt (by omega)]
      · rw [hstfree] at hjf
        cases hjf
  apply is_handle_valid_ne_gen
  rw [hidx]
  rcases hfinal with hf | hf <;> rw [hf] <;> omega

/-- Witness for the amended C3: erase the root `10` of the tree `{10, 5}`
(one child), then insert `20`, which reuses the freed slot 0; the old handle
`pack 0 2` is stale while the new handle is `pack 0 4` over the same raw
index. -/
theorem C3_witness :
    is_handle_valid
      ({ slots := [{ generation := 4, left := none, right := none, val := (20 : Int) },
                   { generation := 2, left := none, right := some 0, val := 5 }],
         root_idx := some 1, free_head := none, alive_count := 2 } : bst Int)
      (pack 0 2) = false :=
  C3_erase_insert_stale_handle
    { slots := [{ generation := 2, left := some 1, right := none, val := (10 : Int) },
                { generation := 2, left := none, right := none, val := 5 }],
      root_idx := some 0, free_head := none, alive_count := 2 }
    { slots := [{ generation := 3, left := none, right := none, val := (10 : Int) },
                { generation := 2, left := none, right := none, val := 5 }],
      root_idx := some 1, free_head := some 0, alive_count := 1 }
    _ 10 20 (pack 0 2) (pack 0 4) none 0 true
    (by decide) (by decide) (by decide) (.inr (by decide)) (by decide) (by decide)
    (by decide) rfl

/-! ### Claim C4 : handle stability across unrelated mutations -/

/-- Claim C4 (counterexample): in the tree built by inserting `2, 1, 3`, the
handle issued for `3` is valid, `2 ≠ 3` is erased — and the handle for `3`
becomes invalid, because the two-children erase of `2` freed the successor
`3`'s slot. The claim promised stability across erasures of other keys. -/
theorem C4_counterexample :
    ((insertList (empty_bst) [(2 : Int), 1, 3]).bind fun s0 =>
      (find_index s0 3).bind fun h =>
      (erase s0 2).map fun pr =>
        is_handle_valid s0 h &&
        decide ((slotAt s0.slots (unpack_index h)).val = 3) &&
        pr.2 && !(is_handle_valid pr.1 h)) = some true := by decide

/-- Claim C4 (amended): a valid handle stays valid across any completed
insert (given the arena's own free-list precondition, the `assert` of
`allocate_node`, that the free-list head is not alive), and across any
`erase` whose freed slot is not the handle's slot. The one exception the
counterexample exhibits is a two-children erase whose inorder successor is
the handle's own entry: that erase frees the successor's slot. -/
theorem C4_handle_stability [LinearOrder α] [Inhabited α] :
    (∀ (s s'' : bst α) (v : α) (h hh : Nat) (b : Bool),
      (∀ j, s.free_head = some j → (slotAt s.slots j).is_alive = false) →
      is_handle_valid s h = true →
      insert_impl s v = some (.ok (s'', hh, b)) →
      is_handle_valid s'' h = true)
    ∧ (∀ (s s' : bst α) (k : α) (h : Nat) (b : Bool),
      is_handle_valid s h = true →
      erase s k = some (s', b) →
      erase_freed_idx s k ≠ some (unpack_index h) →
      is_handle_valid s' h = true) := by
  constructor
  · intro s s'' v h hh b hpre hv hins
    obtain ⟨hn, hlt, hg, ha⟩ := (is_handle_valid_iff s h).mp hv
    obtain ⟨hle, hcase⟩ := insert_impl_gen_spec s v s'' hh b hins
    rcases hcase with hsame | ⟨j, hj, hother⟩
    · rw [hsame]
      exact hv
    · have hne : unpack_index h ≠ j := by
        rcases hj with ⟨hjf, _, _⟩ | ⟨_, hjlen⟩
        · intro heq
          have := hpre j hjf
          rw [← heq] at this
          rw [this] at ha
          cases ha
        · omega
      exact is_handle_valid_mono hle (hother _ hne) hv
  · intro s s' k h b hv herase hne
    obtain ⟨hn, hlt, hg, ha⟩ := (is_handle_valid_iff s h).mp hv
    unfold erase at herase
    rcases hfind : find_internal_raw s k with _ | ⟨p, curo⟩ <;> rw [hfind] at herase
    · cases herase
    · rcases curo with _ | cur
      · have hs : s = s' := congrArg Prod.fst (Option.some.inj herase)
        rw [← hs]
        exact hv
      · obtain ⟨s₁, hei, hpair⟩ := Option.map_eq_some'.mp herase
        have hs1 : s₁ = s' := congrArg Prod.fst hpair
        subst hs1
        unfold erase_freed_idx at hne
        rw [hfind] at hne
        rcases hl : (slotAt s.slots cur).left with _ | lc <;>
          rcases hr : (slotAt s.slots cur).right with _ | rc
        all_goals simp only [hl, hr] at hne
        · obtain ⟨st, hst, hstlen, hstfree, hstgen, hstother, hstcount⟩ :=
            erase_internal_one_child_spec s p cur (by rw [hl]; exact .inl rfl)
          rw [hei] at hst
          injection hst with hst
          subst hst
          refine is_handle_valid_mono (by omega) (hstother _ ?_) hv
          intro heq
          exact hne (by rw [heq])
        · obtain ⟨st, hst, hstlen, hstfree, hstgen, hstother, hstcount⟩ :=
            erase_internal_one_child_spec s p cur (by rw [hl]; exact .inl rfl)
          rw [hei] at hst
          injection hst with hst
          subst hst
          refine is_handle_valid_mono (by omega) (hstother _ ?_) hv
          intro heq
          exact hne (by rw [heq])
        · obtain ⟨st, hst, hstlen, hstfree, hstgen, hstother, hstcount⟩ :=
            erase_internal_one_child_spec s p cur (by rw [hr]; exact .inr rfl)
          rw [hei] at hst
          injection hst with hst
          subst hst
          refine is_handle_valid_mono (by omega) (hstother _ ?_) hv
          intro heq
          exact hne (by rw [heq])
        · rcases hsucc : succ_loop s.slots (s.slots.length + 1) cur rc with _ | ⟨sp, sc⟩
          · unfold erase_internal at hei
            simp only [hl, hr, hsucc] at hei
            exact Option.noConfusion hei
          · obtain ⟨st, hst, hstlen, hstfree, hstgen, hstother, hstcount⟩ :=
              erase_internal_two_children_gen s p cur lc rc sp sc hl hr hsucc
            rw [hei] at hst
            injection hst with hst
            subst hst
            rw [hsucc] at hne
            refine is_handle_valid_mono (by omega) (hstother _ ?_) hv
            intro heq
            exact hne (by rw [heq]; rfl)

/-- Witness for the amended C4: in the tree `{2, 1, 3}` the handle `pack 1 2`
(the entry `1`) stays valid across an insert of `4` and across an erase of
`3` (which frees slot 2, not slot 1). -/
theorem C4_witness :
    is_handle_valid
      ({ slots := [{ generation := 2, left := some 1, right := some 2, val := (2 : Int) },
                   { generation := 2, left := none, right := none, val := 1 },
                   { generation := 2, left := none, right := some 3, val := 3 },
                   { generation := 2, left := none, right := none, val := 4 }],
         root_idx := some 0, free_head := none, alive_count := 4 } : bst Int)
      (pack 1 2) = true
    ∧ is_handle_valid
      ({ slots := [{ generation := 2, left := some 1, right := none, val := (2 : Int) },
                   { generation := 2, left := none, right := none, val := 1 },
                   { generation := 3, left := none, right := none, val := 3 }],
         root_idx := some 0, free_head := some 2, alive_count := 2 } : bst Int)
      (pack 1 2) = true :=
  ⟨C4_handle_stability.1
      { slots := [{ generation := 2, left := some 1, right := some 2, val := (2 : Int) },
                  { generation := 2, left := none, right := none, val := 1 },
                  { generation := 2, left := none, right := none, val := 3 }],
        root_idx := some 0, free_head := none, alive_count := 3 }
      _ 4 (pack 1 2) 2097155 true (fun j hj => Option.noConfusion hj)
      (by decide) (by decide),
    C4_handle_stability.2
      { slots := [{ generation := 2, left := some 1, right := some 2, val := (2 : Int) },
                  { generation := 2, left := none, right := none, val := 1 },
                  { generation := 2, left := none, right := none, val := 3 }],
        root_idx := some 0, free_head := none, alive_count := 3 }
      _ 3 (pack 1 2) true (by decide) (by decide) (by decide)⟩



/-! ### Claim C5 : the two-children erase moves the successor value -/

theorem free_node_slot_ne [Inhabited α] (s : bst α) (idx j : Nat) (h : j ≠ idx) :
    slotAt (free_node s idx).slots j = slotAt s.slots j := by
  unfold free_node
  dsimp only
  rw [slotAt_set_ne _ _ _ _ (by omega)]

/-- Setting a slot that keeps its links keeps every slot's links. -/
theorem slotAt_set_links [Inhabited α] (ls : List (Slot α)) (p j : Nat) (x : Slot α)
    (hxl : x.left = (slotAt ls p).left) (hxr : x.right = (slotAt ls p).right) :
    (slotAt (ls.set p x) j).left = (slotAt ls j).left ∧
    (slotAt (ls.set p x) j).right = (slotAt ls j).right := by
  by_cases hpj : p = j
  · subst hpj
    by_cases hp : p < ls.length
    · rw [slotAt_set_eq _ _ _ hp, hxl, hxr]
      exact ⟨rfl, rfl⟩
    · rw [list_set_oob _ _ _ (by omega)]
      exact ⟨rfl, rfl⟩
  · rw [slotAt_set_ne _ _ _ _ hpj]
    exact ⟨rfl, rfl⟩

/-- Claim C5: erasing a key whose node has two children moves the inorder
successor's value into the erased node's slot (a value overwrite, not a slot
swap): the erased node's slot stays alive with its generation — and hence its
handle — intact, the successor's handle goes stale, the successor (which has
no left child, by the descent that found it) is spliced out of its parent by
the one-or-zero-child relinking rule, its slot is freed, and the live count
drops by exactly one. -/
theorem C5_erase_two_children [LinearOrder α] [Inhabited α]
    (s s' : bst α) (k : α) (p : Option Nat) (cur lc rc sp sc : Nat) (h h' : Nat)
    (hfind : find_internal_raw s k = some (p, some cur))
    (hl : (slotAt s.slots cur).left = some lc)
    (hr : (slotAt s.slots cur).right = some rc)
    (hsucc : succ_loop s.slots (s.slots.length + 1) cur rc = some (sp, sc))
    (hv : is_handle_valid s h = true) (hidx : unpack_index h = cur)
    (hv' : is_handle_valid s h' = true) (hidx' : unpack_index h' = sc)
    (hsp : (slotAt s.slots sp).left = some sc ∨ (slotAt s.slots sp).right = some sc)
    (hspsc : sp ≠ sc)
    (hcount : 1 ≤ s.alive_count)
    (herase : erase s k = some (s', true)) :
    (slotAt s'.slots cur).val = (slotAt s.slots sc).val
    ∧ is_handle_valid s' h = true
    ∧ is_handle_valid s' h' = false
    ∧ (slotAt s.slots sc).left = none
    ∧ (if (slotAt s.slots sp).left = some sc
        then (slotAt s'.slots sp).left = (slotAt s.slots sc).right
        else (slotAt s'.slots sp).right = (slotAt s.slots sc).right)
    ∧ (slotAt s'.slots sc).is_alive = false
    ∧ s'.alive_count + 1 = s.alive_count := by
  obtain ⟨hn, hlt, hg, ha⟩ := (is_handle_valid_iff s h).mp hv
  rw [hidx] at hlt hg ha
  obtain ⟨hn', hlt', hg', ha'⟩ := (is_handle_valid_iff s h').mp hv'
  rw [hidx'] at hlt' hg' ha'
  have hscleft : (slotAt s.slots sc).left = none :=
    succ_loop_left_none s.slots _ cur rc sp sc hsucc
  have hcursc : cur ≠ sc := by
    intro he
    rw [he, hscleft] at hl
    cases hl
  have hsplt : sp < s.slots.length := by
    by_contra hc
    have := slotAt_oob s.slots sp (by omega)
    rcases hsp with hc1 | hc1 <;> rw [this] at hc1 <;> cases hc1
  have hgb' : unpack_gen h' < 2 ^ 12 := by
    simpa [gen_bits] using unpack_gen_lt h'
  have e32 : (2 : Nat) ^ total_bits = 4294967296 := by norm_num [total_bits]
  have e12 : (2 : Nat) ^ 12 = 4096 := by norm_num
  -- extract the state transition
  unfold erase at herase
  rw [hfind] at herase
  obtain ⟨s₁, hei, hpair⟩ := Option.map_eq_some'.mp herase
  have hs1 : s₁ = s' := congrArg Prod.fst hpair
  subst hs1
  unfold erase_internal at hei
  simp only [hl, hr, hsucc] at hei
  injection hei with hei
  -- name the intermediate states
  set x : Slot α :=
    { generation := (slotAt s.slots cur).generation, left := some lc, right := some rc,
      val := (slotAt s.slots sc).val } with hxdef
  set sA : bst α :=
    { slots := s.slots.set cur x, root_idx := s.root_idx, free_head := s.free_head,
      alive_count := s.alive_count } with hsAdef
  have hxgen : x.generation = (slotAt s.slots cur).generation := rfl
  have hxl : x.left = (slotAt s.slots cur).left := by rw [hl]
  have hxr : x.right = (slotAt s.slots cur).right := by rw [hr]
  have hsA_len : sA.slots.length = s.slots.length := by
    rw [hsAdef]
    exact List.length_set _ _ _
  have hsA_gen : ∀ j, (slotAt sA.slots j).generation = (slotAt s.slots j).generation :=
    fun j => slotAt_set_gen _ _ _ _ hxgen
  have hsA_links : ∀ j, (slotAt sA.slots j).left = (slotAt s.slots j).left ∧
      (slotAt sA.slots j).right = (slotAt s.slots j).right :=
    fun j => slotAt_set_links _ _ _ _ hxl hxr
  have hsA_val_ne : ∀ j, j ≠ cur → (slotAt sA.slots j).val = (slotAt s.slots j).val := by
    intro j hj
    rw [hsAdef]
    dsimp only
    rw [slotAt_set_ne _ _ _ _ (by omega)]
  have hsA_val_cur : (slotAt sA.slots cur).val = (slotAt s.slots sc).val := by
    rw [hsAdef]
    dsimp only
    rw [slotAt_set_eq _ _ _ hlt]
  -- the relink step
  set nr : Option Nat := (slotAt sA.slots sc).right with hnrdef
  have hnr : nr = (slotAt s.slots sc).right := (hsA_links sc).2
  set sB : bst α := relink_child sA (some sp) (some sc) nr with hsBdef
  have hsB_len : sB.slots.length = s.slots.length := by
    rw [hsBdef, relink_child_length, hsA_len]
  have hsB_gen : ∀ j, (slotAt sB.slots j).generation = (slotAt s.slots j).generation := by
    intro j
    rw [hsBdef, relink_child_gen, hsA_gen]
  have hsB_val : ∀ j, (slotAt sB.slots j).val = (slotAt sA.slots j).val := by
    intro j
    rw [hsBdef, relink_child_val]
  have hsB_count : sB.alive_count = s.alive_count := by
    rw [hsBdef, relink_child_alive_count]
  -- the final state
  have hfin : s₁ = free_node sB sc := hei.symm
  have hlen' : s₁.slots.length = s.slots.length := by
    rw [hfin, free_node_length, hsB_len]
  refine ⟨?_, ?_, ?_, hscleft, ?_, ?_, ?_⟩
  · rw [hfin, free_node_slot_ne sB sc cur hcursc, hsB_val, hsA_val_cur]
  · refine is_handle_valid_mono (by omega) ?_ hv
    rw [hidx, hfin, free_node_slot_ne sB sc cur hcursc, hsB_gen]
  · apply is_handle_valid_ne_gen
    rw [hidx', hfin,
      free_node_gen_self sB sc (by omega), hsB_gen, hg',
      Nat.mod_eq_of_lt (by omega)]
    omega
  · have hsAsp_l : (slotAt sA.slots sp).left = (slotAt s.slots sp).left := (hsA_links sp).1
    have hsAsp_r : (slotAt sA.slots sp).right = (slotAt s.slots sp).right := (hsA_links sp).2
    have hsplt2 : sp < sA.slots.length := by omega
    by_cases hcond : (slotAt s.slots sp).left = some sc
    · rw [if_pos hcond]
      set y : Slot α :=
        { generation := (slotAt sA.slots sp).generation, left := nr,
          right := (slotAt sA.slots sp).right, val := (slotAt sA.slots sp).val } with hydef
      have hB : sB = { sA with slots := sA.slots.set sp y } := by
        rw [hsBdef]
        unfold relink_child
        dsimp only
        rw [if_pos (by rw [beq_iff_eq, hsAsp_l, hcond])]
      rw [hfin, free_node_slot_ne sB sc sp hspsc, hB]
      dsimp only
      rw [slotAt_set_eq _ _ _ hsplt2, ← hnr]
    · rw [if_neg hcond]
      have hcond2 : (slotAt s.slots sp).right = some sc := by
        rcases hsp with hc | hc
        · exact absurd hc hcond
        · exact hc
      set y : Slot α :=
        { generation := (slotAt sA.slots sp).generation, left := (slotAt sA.slots sp).left,
          right := nr, val := (slotAt sA.slots sp).val } with hydef
      have hB : sB = { sA with slots := sA.slots.set sp y } := by
        rw [hsBdef]
        unfold relink_child
        dsimp only
        rw [if_neg (by rw [beq_iff_eq, hsAsp_l]; exact hcond),
          if_pos (by rw [beq_iff_eq, hsAsp_r, hcond2])]
      rw [hfin, free_node_slot_ne sB sc sp hspsc, hB]
      dsimp only
      rw [slotAt_set_eq _ _ _ hsplt2, ← hnr]
  · have hev : unpack_gen h' % 2 = 0 := by
      have hx := ha'
      simp only [Slot.is_alive, hg', beq_iff_eq] at hx
      exact hx
    rw [hfin]
    simp only [Slot.is_alive]
    rw [free_node_gen_self sB sc (by omega), hsB_gen, hg',
      Nat.mod_eq_of_lt (show unpack_gen h' + 1 < 2 ^ total_bits by omega)]
    simp only [beq_eq_false_iff_ne, ne_eq]
    omega
  · rw [hfin, free_node_alive_count, hsB_count]
    omega

/-- Witness for C5: erase `2` (children `1` and `3`) from the tree built by
inserting `5, 2, 8, 1, 3, 7, 9`. -/
theorem C5_witness :
    (slotAt
      ([{ generation := 2, left := some 1, right := some 2, val := (5 : Int) },
        { generation := 2, left := some 3, right := none, val := 3 },
        { generation := 2, left := some 5, right := some 6, val := 8 },
        { generation := 2, left := none, right := none, val := 1 },
        { generation := 3, left := none, right := none, val := 3 },
        { generation := 2, left := none, right := none, val := 7 },
        { generation := 2, left := none, right := none, val := 9 }] : List (Slot Int))
      1).val = 3
    ∧ is_handle_valid
        ({ slots := [{ generation := 2, left := some 1, right := some 2, val := (5 : Int) },
                     { generation := 2, left := some 3, right := none, val := 3 },
                     { generation := 2, left := some 5, right := some 6, val := 8 },
                     { generation := 2, left := none, right := none, val := 1 },
                     { generation := 3, left := none, right := none, val := 3 },
                     { generation := 2, left := none, right := none, val := 7 },
                     { generation := 2, left := none, right := none, val := 9 }],
           root_idx := some 0, free_head := some 4, alive_count := 6 } : bst Int)
        (pack 1 2) = true := by
  have hmain := C5_erase_two_children
    ({ slots := [{ generation := 2, left := some 1, right := some 2, val := (5 : Int) },
                 { generation := 2, left := some 3, right := some 4, val := 2 },
                 { generation := 2, left := some 5, right := some 6, val := 8 },
                 { generation := 2, left := none, right := none, val := 1 },
                 { generation := 2, left := none, right := none, val := 3 },
                 { generation := 2, left := none, right := none, val := 7 },
                 { generation := 2, left := none, right := none, val := 9 }],
       root_idx := some 0, free_head := none, alive_count := 7 } : bst Int)
    ({ slots := [{ generation := 2, left := some 1, right := some 2, val := (5 : Int) },
                 { generation := 2, left := some 3, right := none, val := 3 },
                 { generation := 2, left := some 5, right := some 6, val := 8 },
                 { generation := 2, left := none, right := none, val := 1 },
                 { generation := 3, left := none, right := none, val := 3 },
                 { generation := 2, left := none, right := none, val := 7 },
                 { generation := 2, left := none, right := none, val := 9 }],
       root_idx := some 0, free_head := some 4, alive_count := 6 } : bst Int)
    2 (some 0) 1 3 4 1 4 (pack 1 2) (pack 4 2)
    (by decide) (by decide) (by decide) (by decide) (by decide) (by decide)
    (by decide) (by decide) (.inr (by decide)) (by decide) (by decide) (by decide)
  exact ⟨hmain.1, hmain.2.1⟩



/-! ### Facts about `ITree` and `Models` -/

theorem ITree.idxList_length (t : ITree α) : t.idxList.length = t.size := by
  induction t with
  | leaf => rfl
  | node l i v r ihl ihr => simp [ITree.idxList, ITree.size, ihl, ihr]; omega

theorem ITree.valsList_length (t : ITree α) : t.valsList.length = t.size := by
  induction t with
  | leaf => rfl
  | node l i v r ihl ihr => simp [ITree.valsList, ITree.size, ihl, ihr]; omega

theorem models_idx_lt [Inhabited α] {ls : List (Slot α)} {oi : Option Nat} {t : ITree α}
    (hm : Models ls oi t) : ∀ i ∈ t.idxList, i < ls.length := by
  induction hm with
  | leaf => intro i hi; simp [ITree.idxList] at hi
  | @node i v l r hlt halive hval hml hmr ihl ihr =>
    intro j hj
    simp only [ITree.idxList, List.mem_append, List.mem_cons] at hj
    rcases hj with hj | hj | hj
    · exact ihl j hj
    · omega
    · exact ihr j hj

theorem models_alive [Inhabited α] {ls : List (Slot α)} {oi : Option Nat} {t : ITree α}
    (hm : Models ls oi t) : ∀ i ∈ t.idxList, (slotAt ls i).is_alive = true := by
  induction hm with
  | leaf => intro i hi; simp [ITree.idxList] at hi
  | @node i v l r hlt halive hval hml hmr ihl ihr =>
    intro j hj
    simp only [ITree.idxList, List.mem_append, List.mem_cons] at hj
    rcases hj with hj | hj | hj
    · exact ihl j hj
    · rw [hj]
      exact halive
    · exact ihr j hj

theorem models_val [Inhabited α] {ls : List (Slot α)} {oi : Option Nat} {t : ITree α}
    (hm : Models ls oi t) : ∀ i v l r, t = .node l i v r → (slotAt ls i).val = v := by
  cases hm with
  | leaf => intro i v l r he; cases he
  | node hlt halive hval hml hmr =>
    intro j w l' r' he
    injection he with h1 h2 h3 h4
    subst h2
    subst h3
    exact hval

/-- `Models` only looks slots up, so it survives appending to the arena. -/
theorem models_append [Inhabited α] {ls : List (Slot α)} {oi : Option Nat} {t : ITree α}
    (hm : Models ls oi t) (xs : List (Slot α)) : Models (ls ++ xs) oi t := by
  induction hm with
  | leaf => exact .leaf
  | @node i v l r hlt halive hval hml hmr ihl ihr =>
    have hsl : slotAt (ls ++ xs) i = slotAt ls i := slotAt_append_left _ _ _ hlt
    refine Models.node (by simp; omega) ?_ ?_ ?_ ?_
    · rw [hsl]; exact halive
    · rw [hsl]; exact hval
    · rw [hsl]; exact ihl
    · rw [hsl]; exact ihr

/-- `Models` survives overwriting a slot outside the tree. -/
theorem models_set_outside [Inhabited α] {ls : List (Slot α)} {oi : Option Nat} {t : ITree α}
    (hm : Models ls oi t) (j : Nat) (x : Slot α) (hj : j ∉ t.idxList) :
    Models (ls.set j x) oi t := by
  induction hm with
  | leaf => exact .leaf
  | @node i v l r hlt halive hval hml hmr ihl ihr =>
    have hij : j ≠ i := by
      intro he
      exact hj (by rw [he]; simp [ITree.idxList])
    have hsl : slotAt (ls.set j x) i = slotAt ls i := slotAt_set_ne _ _ _ _ hij
    have hjl : j ∉ l.idxList := fun hc => hj (by simp [ITree.idxList, hc])
    have hjr : j ∉ r.idxList := fun hc => hj (by simp [ITree.idxList, hc])
    refine Models.node (by simp; omega) ?_ ?_ ?_ ?_
    · rw [hsl]; exact halive
    · rw [hsl]; exact hval
    · rw [hsl]; exact ihl hjl
    · rw [hsl]; exact ihr hjr

theorem models_size_le [Inhabited α] {ls : List (Slot α)} {oi : Option Nat} {t : ITree α}
    (hm : Models ls oi t) (hnd : t.idxList.Nodup) : t.size ≤ ls.length := by
  have hsub : t.idxList.toFinset ⊆ Finset.range ls.length := by
    intro i hi
    simp only [List.mem_toFinset] at hi
    simp only [Finset.mem_range]
    exact models_idx_lt hm i hi
  have hcard := Finset.card_le_card hsub
  rw [Finset.card_range, List.toFinset_card_of_nodup hnd] at hcard
  rw [← ITree.idxList_length]
  exact hcard

/-! ### The stack-based inorder loop visits `ITree.valsList` -/

theorem inorder_loop_nil_none [Inhabited α] (ls : List (Slot α)) (fuel : Nat)
    (acc : List α) : inorder_loop ls fuel [] none acc = some acc := by
  cases fuel <;> rfl

theorem inorder_loop_step_push [Inhabited α] (ls : List (Slot α)) (fuel : Nat)
    (stack : List Nat) (i : Nat) (acc : List α) :
    inorder_loop ls (fuel + 1) stack (some i) acc
      = inorder_loop ls fuel (i :: stack) (slotAt ls i).left acc := by
  cases stack <;> rfl

theorem inorder_loop_step_pop [Inhabited α] (ls : List (Slot α)) (fuel : Nat)
    (stack : List Nat) (i : Nat) (acc : List α) :
    inorder_loop ls (fuel + 1) (i :: stack) none acc
      = inorder_loop ls fuel stack (slotAt ls i).right (acc ++ [(slotAt ls i).val]) := rfl

theorem inorder_loop_spec [Inhabited α] {ls : List (Slot α)} {t : ITree α} {oi : Option Nat}
    (hm : Models ls oi t) :
    ∀ fuel stack acc, inorder_loop ls (2 * t.size + fuel) stack oi acc
      = inorder_loop ls fuel stack none (acc ++ t.valsList) := by
  induction hm with
  | leaf =>
    intro fuel stack acc
    simp [ITree.size, ITree.valsList]
  | @node i v l r hlt halive hval hml hmr ihl ihr =>
    intro fuel stack acc
    have harith : 2 * (ITree.node l i v r).size + fuel
        = (2 * l.size + (2 * r.size + 1 + fuel)) + 1 := by
      simp [ITree.size]
      ring
    rw [harith, inorder_loop_step_push, ihl]
    have harith2 : 2 * r.size + 1 + fuel = (2 * r.size + fuel) + 1 := by ring
    rw [harith2, inorder_loop_step_pop, ihr, hval]
    simp [ITree.valsList]

/-- The wrapper fuel `2 * length + 1` suffices for every modelled tree. -/
theorem inorder_of_models [Inhabited α] {s : bst α} {t : ITree α}
    (hm : Models s.slots s.root_idx t) (hnd : t.idxList.Nodup) :
    inorder s = some t.valsList := by
  have hsize : t.size ≤ s.slots.length := models_size_le hm hnd
  unfold inorder
  have h1 : 2 * s.slots.length + 1 = 2 * t.size + (2 * (s.slots.length - t.size) + 1) := by
    omega
  rw [h1, inorder_loop_spec hm, inorder_loop_nil_none, List.nil_append]

/-! ### The search-tree invariant sorts the inorder sequence -/

theorem st_sorted [LinearOrder α] {t : ITree α} (hst : ST t) :
    t.valsList.Sorted (· < ·) := by
  induction hst with
  | leaf => exact List.sorted_nil
  | @node l r i v hstl hstr hbl hbr ihl ihr =>
    simp only [ITree.valsList, List.Sorted]
    rw [List.pairwise_append]
    refine ⟨ihl, List.pairwise_cons.mpr ⟨hbr, ihr⟩, ?_⟩
    intro x hx y hy
    rcases List.mem_cons.mp hy with hy | hy
    · rw [hy]
      exact hbl x hx
    · exact lt_trans (hbl x hx) (hbr y hy)



/-! ### Algebraic insertion on `ITree` (the shape `insert_impl` commits) -/

/-- Insertion into the index tree: the fresh node gets arena index `n`. -/
def insT [LinearOrder α] (n : Nat) (v : α) : ITree α → ITree α
  | .leaf => .node .leaf n v .leaf
  | .node l i w r =>
    if v < w then .node (insT n v l) i w r
    else if w < v then .node l i w (insT n v r)
    else .node l i w r

theorem insT_vals_mem [LinearOrder α] (n : Nat) (v : α) (t : ITree α) :
    ∀ x, x ∈ (insT n v t).valsList ↔ x = v ∨ x ∈ t.valsList := by
  induction t with
  | leaf => intro x; simp [insT, ITree.valsList]
  | node l i w r ihl ihr =>
    intro x
    by_cases h1 : v < w
    · simp only [insT, if_pos h1, ITree.valsList, List.mem_append, List.mem_cons, ihl]
      tauto
    · by_cases h2 : w < v
      · simp only [insT, if_neg h1, if_pos h2, ITree.valsList, List.mem_append,
          List.mem_cons, ihr]
        tauto
      · have hvw : v = w := le_antisymm (not_lt.mp h2) (not_lt.mp h1)
        simp only [insT, if_neg h1, if_neg h2, ITree.valsList, List.mem_append, List.mem_cons]
        subst hvw
        tauto

theorem insT_idx_sub [LinearOrder α] (n : Nat) (v : α) (t : ITree α) :
    ∀ j ∈ (insT n v t).idxList, j = n ∨ j ∈ t.idxList := by
  induction t with
  | leaf => intro j hj; simp [insT, ITree.idxList] at hj; tauto
  | node l i w r ihl ihr =>
    intro j hj
    by_cases h1 : v < w
    · simp only [insT, if_pos h1, ITree.idxList, List.mem_append, List.mem_cons] at hj
      simp only [ITree.idxList, List.mem_append, List.mem_cons]
      rcases hj with hj | hj | hj
      · rcases ihl j hj with hc | hc
        · tauto
        · tauto
      · tauto
      · tauto
    · by_cases h2 : w < v
      · simp only [insT, if_neg h1, if_pos h2, ITree.idxList, List.mem_append,
          List.mem_cons] at hj
        simp only [ITree.idxList, List.mem_append, List.mem_cons]
        rcases hj with hj | hj | hj
        · tauto
        · tauto
        · rcases ihr j hj with hc | hc
          · tauto
          · tauto
      · simp only [insT, if_neg h1, if_neg h2] at hj
        tauto

theorem insT_size [LinearOrder α] (n : Nat) (v : α) (t : ITree α)
    (hv : v ∉ t.valsList) : (insT n v t).size = t.size + 1 := by
  induction t with
  | leaf => rfl
  | node l i w r ihl ihr =>
    have hvl : v ∉ l.valsList := fun hc => hv (by simp [ITree.valsList, hc])
    have hvr : v ∉ r.valsList := fun hc => hv (by simp [ITree.valsList, hc])
    by_cases h1 : v < w
    · simp only [insT, if_pos h1, ITree.size, ihl hvl]
      omega
    · by_cases h2 : w < v
      · simp only [insT, if_neg h1, if_pos h2, ITree.size, ihr hvr]
        omega
      · have hvw : v = w := le_antisymm (not_lt.mp h2) (not_lt.mp h1)
        exact absurd (by simp [ITree.valsList, hvw]) hv

theorem insT_st [LinearOrder α] {t : ITree α} (n : Nat) (v : α) (hst : ST t) :
    ST (insT n v t) := by
  induction hst with
  | leaf =>
    refine ST.node ST.leaf ST.leaf ?_ ?_ <;> intro x hx <;>
      simp [ITree.valsList] at hx
  | @node l r i w hstl hstr hbl hbr ihl ihr =>
    by_cases h1 : v < w
    · simp only [insT, if_pos h1]
      refine ST.node ihl hstr ?_ hbr
      intro x hx
      rcases (insT_vals_mem n v l x).mp hx with hc | hc
      · rw [hc]
        exact h1
      · exact hbl x hc
    · by_cases h2 : w < v
      · simp only [insT, if_neg h1, if_pos h2]
        refine ST.node hstl ihr hbl ?_
        intro x hx
        rcases (insT_vals_mem n v r x).mp hx with hc | hc
        · rw [hc]
          exact h2
        · exact hbr x hc
      · simp only [insT, if_neg h1, if_neg h2]
        exact ST.node hstl hstr hbl hbr

theorem insT_nodup [LinearOrder α] {t : ITree α} (n : Nat) (v : α)
    (hnd : t.idxList.Nodup) (hn : n ∉ t.idxList) : (insT n v t).idxList.Nodup := by
  induction t with
  | leaf => simp [insT, ITree.idxList]
  | node l i w r ihl ihr =>
    rw [show (ITree.node l i w r).idxList = l.idxList ++ i :: r.idxList from rfl,
      List.nodup_append] at hnd
    obtain ⟨hndl, hndir, hdisj⟩ := hnd
    rw [List.nodup_cons] at hndir
    obtain ⟨hir, hndr⟩ := hndir
    have hnl : n ∉ l.idxList := fun hc => hn (by simp [ITree.idxList, hc])
    have hnr : n ∉ r.idxList := fun hc => hn (by simp [ITree.idxList, hc])
    have hni : n ≠ i := fun hc => hn (by simp [ITree.idxList, hc])
    by_cases h1 : v < w
    · simp only [insT, if_pos h1, ITree.idxList, List.nodup_append, List.nodup_cons]
      refine ⟨ihl hndl hnl, ⟨hir, hndr⟩, ?_⟩
      intro a ha
      rcases insT_idx_sub n v l a ha with hc | hc
      · subst hc
        intro hc2
        rcases List.mem_cons.mp hc2 with hd | hd
        · exact hni hd
        · exact hnr hd
      · have := hdisj hc
        simpa using this
    · by_cases h2 : w < v
      · simp only [insT, if_neg h1, if_pos h2, ITree.idxList, List.nodup_append,
          List.nodup_cons]
        refine ⟨hndl, ⟨?_, ihr hndr hnr⟩, ?_⟩
        · intro hc
          rcases insT_idx_sub n v r i hc with hd | hd
          · exact hni hd.symm
          · exact hir hd
        · intro a ha hc2
          have hal := hdisj ha
          rcases List.mem_cons.mp hc2 with hd | hd
          · exact hal (by rw [hd]; exact List.mem_cons_self _ _)
          · rcases insT_idx_sub n v r a hd with he | he
            · exact hnl (he ▸ ha)
            · exact hal (List.mem_cons_of_mem _ he)
      · simp only [insT, if_neg h1, if_neg h2, ITree.idxList, List.nodup_append,
          List.nodup_cons]
        refine ⟨hndl, ⟨hir, hndr⟩, ?_⟩
        intro a ha
        have := hdisj ha
        simpa using this

theorem models_some_node [Inhabited α] {ls : List (Slot α)} {i : Nat} {t : ITree α}
    (hm : Models ls (some i) t) : ∃ l w r, t = .node l i w r := by
  cases hm
  exact ⟨_, _, _, rfl⟩

theorem slotAt_append_self [Inhabited α] (ls : List (Slot α)) (x : Slot α) :
    slotAt (ls ++ [x]) ls.length = x := by
  induction ls with
  | nil => rfl
  | cons a as ih => simp only [List.cons_append, List.length_cons, slotAt, List.getD] at ih ⊢; exact ih

theorem insert_find_loop_none [LinearOrder α] [Inhabited α] (ls : List (Slot α))
    (v : α) (fuel : Nat) (p : Option Nat) (gl : Bool) :
    insert_find_loop ls v fuel p gl none = some (p, gl, none) := by
  cases fuel <;> rfl

theorem insert_find_loop_step [LinearOrder α] [Inhabited α] (ls : List (Slot α))
    (v : α) (fuel : Nat) (p : Option Nat) (gl : Bool) (cur : Nat) :
    insert_find_loop ls v (fuel + 1) p gl (some cur)
      = (if v < (slotAt ls cur).val then
          insert_find_loop ls v fuel (some cur) true (slotAt ls cur).left
        else if (slotAt ls cur).val < v then
          insert_find_loop ls v fuel (some cur) false (slotAt ls cur).right
        else some (p, gl, some cur)) := rfl



/-! ### The commit state of a non-duplicate insert -/

/-- The arena after `insert_impl`'s not-found path: append the fresh slot,
then point the attach parent `pi` (left or right, per `glf`) at it. -/
def newSlot [Inhabited α] (v : α) : Slot α :=
  { generation := 2, left := none, right := none, val := v }

def commitSlots [Inhabited α] (ls : List (Slot α)) (v : α) (pi : Nat) (glf : Bool) :
    List (Slot α) :=
  match glf with
  | true =>
    (ls ++ [newSlot v]).set pi { slotAt (ls ++ [newSlot v]) pi with left := some ls.length }
  | false =>
    (ls ++ [newSlot v]).set pi { slotAt (ls ++ [newSlot v]) pi with right := some ls.length }

theorem commitSlots_length [Inhabited α] (ls : List (Slot α)) (v : α) (pi : Nat)
    (glf : Bool) : (commitSlots ls v pi glf).length = ls.length + 1 := by
  rcases glf <;> simp [commitSlots]

theorem commitSlots_slot_ne [Inhabited α] (ls : List (Slot α)) (v : α) (pi : Nat)
    (glf : Bool) (j : Nat) (hj : j ≠ pi) (hjl : j < ls.length) :
    slotAt (commitSlots ls v pi glf) j = slotAt ls j := by
  rcases glf <;> simp only [commitSlots] <;>
    rw [slotAt_set_ne _ _ _ _ (by omega), slotAt_append_left _ _ _ hjl]

theorem commitSlots_slot_new [Inhabited α] (ls : List (Slot α)) (v : α) (pi : Nat)
    (glf : Bool) (hpi : pi < ls.length) :
    slotAt (commitSlots ls v pi glf) ls.length = newSlot v := by
  rcases glf <;> simp only [commitSlots] <;>
    rw [slotAt_set_ne _ _ _ _ (by omega), slotAt_append_self]

theorem commitSlots_slot_pi [Inhabited α] (ls : List (Slot α)) (v : α) (pi : Nat)
    (glf : Bool) (hpi : pi < ls.length) :
    slotAt (commitSlots ls v pi glf) pi
      = (if glf then { slotAt ls pi with left := some ls.length }
         else { slotAt ls pi with right := some ls.length }) := by
  have happ : slotAt (ls ++ [newSlot v]) pi = slotAt ls pi :=
    slotAt_append_left _ _ _ hpi
  rcases glf <;> simp only [commitSlots, Bool.false_eq_true, if_false, if_true] <;>
    rw [slotAt_set_eq _ _ _ (by simp; omega), happ]

theorem models_commit_outside [Inhabited α] {ls : List (Slot α)} {oi : Option Nat}
    {t : ITree α} (hm : Models ls oi t) (v : α) (pi : Nat) (glf : Bool)
    (hpi : pi ∉ t.idxList) : Models (commitSlots ls v pi glf) oi t := by
  rcases glf <;> simp only [commitSlots] <;>
    exact models_set_outside (models_append hm _) _ _ hpi

/-- The descent of `insert_impl` against a modelled subtree: a present value
is found at its node; an absent value stops at an attach parent `pi` inside
the subtree such that committing the fresh node there models `insT`. -/
theorem insert_descend [LinearOrder α] [Inhabited α] {ls : List (Slot α)} (v : α) :
    ∀ (t : ITree α) (i0 : Nat), Models ls (some i0) t → ST t → t.idxList.Nodup →
    ∀ (fuel : Nat) (p0 : Option Nat) (gl0 : Bool), t.size + 1 ≤ fuel →
    ((v ∈ t.valsList →
       ∃ pf glf c, insert_find_loop ls v fuel p0 gl0 (some i0) = some (pf, glf, some c)
         ∧ (slotAt ls c).val = v ∧ c ∈ t.idxList)
     ∧ (v ∉ t.valsList →
       ∃ pi glf, insert_find_loop ls v fuel p0 gl0 (some i0) = some (some pi, glf, none)
         ∧ pi ∈ t.idxList
         ∧ Models (commitSlots ls v pi glf) (some i0) (insT ls.length v t))) := by
  intro t
  induction t with
  | leaf =>
    intro i0 hm
    cases hm
  | node l i w r ihl ihr =>
    intro i0 hm hst hnd fuel p0 gl0 hfuel
    cases hm with
    | node hlt halive hval hml hmr =>
    cases hst with
    | node hstl hstr hbl hbr =>
    rw [show (ITree.node l i w r).idxList = l.idxList ++ i :: r.idxList from rfl,
      List.nodup_append] at hnd
    obtain ⟨hndl, hndir, hdisj⟩ := hnd
    rw [List.nodup_cons] at hndir
    obtain ⟨hir, hndr⟩ := hndir
    have hi0l : i ∉ l.idxList := fun hc => (hdisj hc) (List.mem_cons_self _ _)
    have hsize : (ITree.node l i w r).size = l.size + 1 + r.size := rfl
    obtain ⟨F, rfl⟩ : ∃ F, fuel = F + 1 := by
      cases fuel with
      | zero => simp [ITree.size] at hfuel
      | succ n => exact ⟨n, rfl⟩
    rw [insert_find_loop_step, hval]
    by_cases hvw : v < w
    · rw [if_pos hvw]
      have hvnw : v ≠ w := ne_of_lt hvw
      have hvnr : v ∉ r.valsList := fun hc => absurd (hbr v hc) (lt_asymm hvw)
      constructor
      · intro hv
        have hvl : v ∈ l.valsList := by
          simp only [ITree.valsList, List.mem_append, List.mem_cons] at hv
          rcases hv with hv | hv | hv
          · exact hv
          · exact absurd hv hvnw
          · exact absurd hv hvnr
        rcases hleft : (slotAt ls i).left with _ | il
        · rw [hleft] at hml
          cases hml
          simp [ITree.valsList] at hvl
        · rw [hleft] at hml
          obtain ⟨hfound, _⟩ := ihl il hml hstl hndl F (some i) true
            (by rw [hsize] at hfuel; omega)
          obtain ⟨pf, glf, c, hloop, hcval, hcmem⟩ := hfound hvl
          refine ⟨pf, glf, c, hloop, hcval, ?_⟩
          simp only [ITree.idxList, List.mem_append]
          exact .inl hcmem
      · intro hv
        have hvl : v ∉ l.valsList := fun hc => hv (by simp [ITree.valsList, hc])
        rcases hleft : (slotAt ls i).left with _ | il
        · -- attach directly under i, to the left
          rw [hleft] at hml
          cases hml
          rw [insert_find_loop_none]
          refine ⟨i, true, rfl, by simp [ITree.idxList], ?_⟩
          simp only [insT, if_pos hvw]
          have hpi : slotAt (commitSlots ls v i true) i
              = { slotAt ls i with left := some ls.length } := by
            rw [commitSlots_slot_pi _ _ _ _ hlt]
            simp
          refine Models.node (by rw [commitSlots_length]; omega) ?_ ?_ ?_ ?_
          · rw [hpi]
            exact halive
          · rw [hpi]
            exact hval
          · rw [hpi]
            show Models _ (some ls.length) _
            have hnew := commitSlots_slot_new ls v i true hlt
            refine Models.node (by rw [commitSlots_length]; omega) ?_ ?_ ?_ ?_
            · rw [hnew]
              simp [newSlot, Slot.is_alive]
            · rw [hnew]
              simp [newSlot]
            · rw [hnew]
              simp only [newSlot]
              exact Models.leaf
            · rw [hnew]
              simp only [newSlot]
              exact Models.leaf
          · rw [hpi]
            show Models _ (slotAt ls i).right r
            exact models_commit_outside hmr v i true
              (fun hc => hir hc)
        · rw [hleft] at hml
          obtain ⟨_, hnotfound⟩ := ihl il hml hstl hndl F (some i) true
            (by rw [hsize] at hfuel; omega)
          obtain ⟨pi, glf, hloop, hpimem, hpimodels⟩ := hnotfound hvl
          refine ⟨pi, glf, hloop, by simp [ITree.idxList, hpimem], ?_⟩
          simp only [insT, if_pos hvw]
          have hpine : i ≠ pi := fun hc => hi0l (hc ▸ hpimem)
          have hpilt : pi < ls.length := models_idx_lt hml pi
            (by exact hpimem) |>.trans_le (le_refl _) |> (fun x => x)
          have hslot : slotAt (commitSlots ls v pi glf) i = slotAt ls i :=
            commitSlots_slot_ne ls v pi glf i hpine hlt
          refine Models.node (by rw [commitSlots_length]; omega) ?_ ?_ ?_ ?_
          · rw [hslot]
            exact halive
          · rw [hslot]
            exact hval
          · rw [hslot, hleft]
            exact hpimodels
          · rw [hslot]
            refine models_commit_outside hmr v pi glf ?_
            intro hc
            exact (hdisj hpimem) (List.mem_cons_of_mem _ hc)
    · by_cases hwv : w < v
      · rw [if_neg hvw, if_pos hwv]
        have hvnw : v ≠ w := (ne_of_lt hwv).symm
        have hvnl : v ∉ l.valsList := fun hc => absurd (hbl v hc) (lt_asymm hwv)
        constructor
        · intro hv
          have hvr : v ∈ r.valsList := by
            simp only [ITree.valsList, List.mem_append, List.mem_cons] at hv
            rcases hv with hv | hv | hv
            · exact absurd hv hvnl
            · exact absurd hv hvnw
            · exact hv
          rcases hright : (slotAt ls i).right with _ | ir
          · rw [hright] at hmr
            cases hmr
            simp [ITree.valsList] at hvr
          · rw [hright] at hmr
            obtain ⟨hfound, _⟩ := ihr ir hmr hstr hndr F (some i) false
              (by rw [hsize] at hfuel; omega)
            obtain ⟨pf, glf, c, hloop, hcval, hcmem⟩ := hfound hvr
            refine ⟨pf, glf, c, hloop, hcval, ?_⟩
            simp only [ITree.idxList, List.mem_append, List.mem_cons]
            exact .inr (.inr hcmem)
        · intro hv
          have hvr : v ∉ r.valsList := fun hc => hv (by simp [ITree.valsList, hc])
          rcases hright : (slotAt ls i).right with _ | ir
          · rw [hright] at hmr
            cases hmr
            rw [insert_find_loop_none]
            refine ⟨i, false, rfl, by simp [ITree.idxList], ?_⟩
            simp only [insT, if_neg hvw, if_pos hwv]
            have hpi : slotAt (commitSlots ls v i false) i
                = { slotAt ls i with right := some ls.length } := by
              rw [commitSlots_slot_pi _ _ _ _ hlt]
              simp
            refine Models.node (by rw [commitSlots_length]; omega) ?_ ?_ ?_ ?_
            · rw [hpi]
              exact halive
            · rw [hpi]
              exact hval
            · rw [hpi]
              show Models _ (slotAt ls i).left l
              exact models_commit_outside hml v i false (fun hc => hi0l hc)
            · rw [hpi]
              show Models _ (some ls.length) _
              have hnew := commitSlots_slot_new ls v i false hlt
              refine Models.node (by rw [commitSlots_length]; omega) ?_ ?_ ?_ ?_
              · rw [hnew]
                simp [newSlot, Slot.is_alive]
              · rw [hnew]
                simp [newSlot]
              · rw [hnew]
                simp only [newSlot]
                exact Models.leaf
              · rw [hnew]
                simp only [newSlot]
                exact Models.leaf
          · rw [hright] at hmr
            obtain ⟨_, hnotfound⟩ := ihr ir hmr hstr hndr F (some i) false
              (by rw [hsize] at hfuel; omega)
            obtain ⟨pi, glf, hloop, hpimem, hpimodels⟩ := hnotfound hvr
            refine ⟨pi, glf, hloop, by simp [ITree.idxList, hpimem], ?_⟩
            simp only [insT, if_neg hvw, if_pos hwv]
            have hpine : i ≠ pi := by
              intro hc
              exact hir (hc ▸ hpimem)
            have hslot : slotAt (commitSlots ls v pi glf) i = slotAt ls i :=
              commitSlots_slot_ne ls v pi glf i hpine hlt
            refine Models.node (by rw [commitSlots_length]; omega) ?_ ?_ ?_ ?_
            · rw [hslot]
              exact halive
            · rw [hslot]
              exact hval
            · rw [hslot]
              refine models_commit_outside hml v pi glf ?_
              intro hc
              exact (hdisj hc) (List.mem_cons_of_mem _ hpimem)
            · rw [hslot, hright]
              exact hpimodels
      · have hvw2 : v = w := le_antisymm (not_lt.mp hwv) (not_lt.mp hvw)
        rw [if_neg hvw, if_neg hwv]
        constructor
        · intro hv
          refine ⟨p0, gl0, i, rfl, ?_, by simp [ITree.idxList]⟩
          rw [hval, hvw2]
        · intro hv
          exact absurd (by simp [ITree.valsList, hvw2]) hv



/-- One completed `insert_impl` step, at the invariant level: the result is
modelled by `insT` (or by the unchanged tree for a duplicate). -/
theorem insert_step [LinearOrder α] [Inhabited α] {s : bst α} {t : ITree α} (v : α)
    (hm : Models s.slots s.root_idx t) (hst : ST t) (hnd : t.idxList.Nodup)
    (hfree : s.free_head = none) (hlen : s.slots.length = t.size)
    (hcap : s.slots.length < npos_raw) :
    ∃ s' hh b t', insert_impl s v = some (.ok (s', hh, b))
      ∧ Models s'.slots s'.root_idx t' ∧ ST t' ∧ t'.idxList.Nodup
      ∧ s'.free_head = none ∧ s'.slots.length = t'.size
      ∧ t'.size ≤ t.size + 1
      ∧ (∀ x, x ∈ t'.valsList ↔ x = v ∨ x ∈ t.valsList) := by
  have halloc : allocate_node s v true = .ok ({ s with
      slots := s.slots ++ [{ generation := 2, left := none, right := none, val := v }],
      alive_count := s.alive_count + 1 }, s.slots.length) := by
    unfold allocate_node
    rw [hfree, if_neg (by omega)]
    rfl
  set s1 : bst α := { s with
    slots := s.slots ++ [{ generation := 2, left := none, right := none, val := v }],
    alive_count := s.alive_count + 1 } with hs1def
  rcases hroot : s.root_idx with _ | rt
  · rw [hroot] at hm
    cases hm
    refine ⟨{ s1 with root_idx := some s.slots.length }, make_handle s1 s.slots.length,
      true, ITree.node .leaf s.slots.length v .leaf, ?_, ?_, ?_, ?_, ?_, ?_, ?_, ?_⟩
    · simp only [insert_impl, hroot, halloc]
    · dsimp only
      have hslot := slotAt_append_self s.slots
        ({ generation := 2, left := none, right := none, val := v } : Slot α)
      refine Models.node (by simp) ?_ ?_ ?_ ?_
      · rw [hslot]
        simp [Slot.is_alive]
      · rw [hslot]
      · rw [hslot]
        exact Models.leaf
      · rw [hslot]
        exact Models.leaf
    · refine ST.node ST.leaf ST.leaf ?_ ?_ <;> intro x hx <;> simp [ITree.valsList] at hx
    · simp [ITree.idxList]
    · exact hfree
    · have h0 : s.slots.length = 0 := by simpa [ITree.size] using hlen
      dsimp only
      simp [ITree.size, h0]
    · simp [ITree.size]
    · intro x
      simp [ITree.valsList]
  · rw [hroot] at hm
    obtain ⟨l, w, rr, rfl⟩ := models_some_node hm
    have hdes := insert_descend v _ rt hm hst hnd (s.slots.length + 1) none false
      (by omega)
    by_cases hv : v ∈ (ITree.node l rt w rr).valsList
    · obtain ⟨pf, glf, c, hloop, hcval, hcmem⟩ := hdes.1 hv
      refine ⟨s, make_handle s c, false, ITree.node l rt w rr, ?_, ?_, hst, hnd,
        hfree, hlen, by omega, ?_⟩
      · simp only [insert_impl, hroot, hloop]
      · rw [hroot]
        exact hm
      · intro x
        constructor
        · intro hx
          exact .inr hx
        · intro hx
          rcases hx with hx | hx
          · rw [hx]
            exact hv
          · exact hx
    · obtain ⟨pi, glf, hloop, hpimem, hmodels⟩ := hdes.2 hv
      have hpilt : pi < s.slots.length := models_idx_lt hm pi hpimem
      have hnmem : s.slots.length ∉ (ITree.node l rt w rr).idxList := by
        intro hc
        exact absurd (models_idx_lt hm _ hc) (by omega)
      have hsz := insT_size s.slots.length v (ITree.node l rt w rr) hv
      rcases glf with _ | _
      · set y2 : Slot α := { slotAt s1.slots pi with right := some s.slots.length }
          with hy2def
        set s2 : bst α := { s1 with slots := s1.slots.set pi y2 } with hs2def
        have hr2 : s2.root_idx = some rt := by
          rw [hs2def, hs1def]
          exact hroot
        refine ⟨s2, make_handle s2 s.slots.length, true,
          insT s.slots.length v (ITree.node l rt w rr), ?_, ?_,
          insT_st _ _ hst, insT_nodup _ _ hnd hnmem, ?_, ?_, ?_, insT_vals_mem _ _ _⟩
        · simp only [insert_impl, hroot, hloop, halloc, hs2def, hy2def, hs1def]
          rfl
        · rw [hr2]
          exact hmodels
        · exact hfree
        · rw [hs2def]
          dsimp only
          simp only [List.length_set, List.length_append, List.length_cons,
            List.length_nil]
          omega
        · omega
      · set y2 : Slot α := { slotAt s1.slots pi with left := some s.slots.length }
          with hy2def
        set s2 : bst α := { s1 with slots := s1.slots.set pi y2 } with hs2def
        have hr2 : s2.root_idx = some rt := by
          rw [hs2def, hs1def]
          exact hroot
        refine ⟨s2, make_handle s2 s.slots.length, true,
          insT s.slots.length v (ITree.node l rt w rr), ?_, ?_,
          insT_st _ _ hst, insT_nodup _ _ hnd hnmem, ?_, ?_, ?_, insT_vals_mem _ _ _⟩
        · simp only [insert_impl, hroot, hloop, halloc, hs2def, hy2def, hs1def]
          rfl
        · rw [hr2]
          exact hmodels
        · exact hfree
        · rw [hs2def]
          dsimp only
          simp only [List.length_set, List.length_append, List.length_cons,
            List.length_nil]
          omega
        · omega

/-- A completed sequence of inserts preserves the refinement invariants; the
resulting tree holds precisely the inserted values plus the old ones. -/
theorem insertList_spec [LinearOrder α] [Inhabited α] {s : bst α} {t : ITree α}
    (l : List α)
    (hm : Models s.slots s.root_idx t) (hst : ST t) (hnd : t.idxList.Nodup)
    (hfree : s.free_head = none) (hlen : s.slots.length = t.size)
    (hcap : s.slots.length + l.length ≤ npos_raw) :
    ∃ s' t', insertList s l = some s'
      ∧ Models s'.slots s'.root_idx t' ∧ ST t' ∧ t'.idxList.Nodup
      ∧ s'.free_head = none ∧ s'.slots.length = t'.size
      ∧ (∀ x, x ∈ t'.valsList ↔ x ∈ l ∨ x ∈ t.valsList) := by
  induction l generalizing s t with
  | nil =>
    exact ⟨s, t, rfl, hm, hst, hnd, hfree, hlen, fun x => by simp⟩
  | cons v vs ih =>
    obtain ⟨s1, hh, b, t1, heq, hm1, hst1, hnd1, hfree1, hlen1, hsz1, hmem1⟩ :=
      insert_step v hm hst hnd hfree hlen
        (by simp only [List.length_cons] at hcap; omega)
    obtain ⟨s2, t2, heq2, hm2, hst2, hnd2, hfree2, hlen2, hmem2⟩ :=
      ih hm1 hst1 hnd1 hfree1 hlen1
        (by simp only [List.length_cons] at hcap; omega)
    refine ⟨s2, t2, ?_, hm2, hst2, hnd2, hfree2, hlen2, ?_⟩
    · simp only [insertList, heq]
      exact heq2
    · intro x
      rw [hmem2 x]
      simp only [List.mem_cons]
      rw [hmem1 x]
      tauto

/-- C1: for every sequence of values passed to insert starting from an empty
tree (within arena capacity), the insert sequence completes, and an inorder
traversal of the result is strictly increasing under the ordering relation
and contains exactly the distinct keys inserted, each duplicate counted
once. -/
theorem C1_insert_inorder [LinearOrder α] [Inhabited α] (l : List α)
    (hcap : l.length ≤ npos_raw) :
    ∃ s out, insertList (empty_bst : bst α) l = some s ∧ inorder s = some out
      ∧ out.Sorted (· < ·) ∧ ∀ x, x ∈ out ↔ x ∈ l := by
  obtain ⟨s, t, heq, hm, hst, hnd, hfree, hlen, hmem⟩ :=
    insertList_spec (s := empty_bst) (t := ITree.leaf) l Models.leaf ST.leaf
      (by simp [ITree.idxList]) rfl rfl (by simpa [empty_bst] using hcap)
  refine ⟨s, t.valsList, heq, inorder_of_models hm hnd, st_sorted hst, ?_⟩
  intro x
  rw [hmem x]
  simp [ITree.valsList]

/-- Witness for C1 at the concrete input [5, 2, 8]. -/
theorem C1_witness :
    ([5, 2, 8] : List Int).length ≤ npos_raw ∧
    ∃ s out, insertList (empty_bst : bst Int) [5, 2, 8] = some s ∧
      inorder s = some out ∧ out.Sorted (· < ·) ∧ ∀ x, x ∈ out ↔ x ∈ [5, 2, 8] :=
  ⟨by decide, C1_insert_inorder [5, 2, 8] (by decide)⟩

/-- A nonempty list splits at the midpoint into the two build halves around
the midpoint element. -/
theorem list_midpoint_split (x : α) (xs : List α) :
    (x :: xs).take ((x :: xs).length / 2) ++
      (x :: xs).getD ((x :: xs).length / 2) x ::
        (x :: xs).drop ((x :: xs).length / 2 + 1) = x :: xs := by
  have hk : (x :: xs).length / 2 < (x :: xs).length := by
    simp only [List.length_cons]
    omega
  rw [List.getD_eq_getElem _ _ hk, ← List.drop_eq_getElem_cons hk,
    List.take_append_drop]

theorem buildIT_cons [Inhabited α] (x : α) (xs : List α) (b : Nat) :
    buildIT (x :: xs) b =
      .node (buildIT ((x :: xs).take ((x :: xs).length / 2)) (b + 1)) b
        ((x :: xs).getD ((x :: xs).length / 2) x)
        (buildIT ((x :: xs).drop ((x :: xs).length / 2 + 1))
          (b + 1 + (x :: xs).length / 2)) := by
  rw [buildIT]

theorem buildIT_vals [Inhabited α] :
    ∀ (n : Nat) (l : List α) (b : Nat), l.length ≤ n →
      (buildIT l b).valsList = l := by
  intro n
  induction n with
  | zero =>
    intro l b hl
    rw [List.length_eq_zero.mp (Nat.le_zero.mp hl), buildIT]
    rfl
  | succ n ih =>
    intro l b hl
    match l with
    | [] => rw [buildIT]; rfl
    | x :: xs =>
      rw [buildIT_cons, ITree.valsList]
      rw [ih _ _ (by simp only [List.length_cons] at hl ⊢; simp [List.length_take]; omega),
        ih _ _ (by simp only [List.length_cons] at hl ⊢; simp [List.length_drop]; omega)]
      exact list_midpoint_split x xs

theorem buildIT_size [Inhabited α] :
    ∀ (n : Nat) (l : List α) (b : Nat), l.length ≤ n →
      (buildIT l b).size = l.length := by
  intro n
  induction n with
  | zero =>
    intro l b hl
    rw [List.length_eq_zero.mp (Nat.le_zero.mp hl), buildIT]
    rfl
  | succ n ih =>
    intro l b hl
    match l with
    | [] => rw [buildIT]; rfl
    | x :: xs =>
      rw [buildIT_cons, ITree.size]
      rw [ih _ _ (by simp only [List.length_cons] at hl ⊢; simp [List.length_take]; omega),
        ih _ _ (by simp only [List.length_cons] at hl ⊢; simp [List.length_drop]; omega)]
      simp only [List.length_take, List.length_drop, List.length_cons]
      omega

theorem buildIT_idx [Inhabited α] :
    ∀ (n : Nat) (l : List α) (b : Nat), l.length ≤ n →
      ∀ i ∈ (buildIT l b).idxList, b ≤ i ∧ i < b + l.length := by
  intro n
  induction n with
  | zero =>
    intro l b hl i hi
    rw [List.length_eq_zero.mp (Nat.le_zero.mp hl), buildIT] at hi
    simp [ITree.idxList] at hi
  | succ n ih =>
    intro l b hl i hi
    match l with
    | [] =>
      rw [buildIT] at hi
      simp [ITree.idxList] at hi
    | x :: xs =>
      rw [buildIT_cons, ITree.idxList] at hi
      simp only [List.length_cons] at hl ⊢
      have htl : ((x :: xs).take ((x :: xs).length / 2)).length
          = (x :: xs).length / 2 := by
        simp only [List.length_take, List.length_cons]
        omega
      have hdl : ((x :: xs).drop ((x :: xs).length / 2 + 1)).length
          = xs.length - (x :: xs).length / 2 := by
        simp only [List.length_drop, List.length_cons]
        omega
      rcases List.mem_append.mp hi with hi | hi
      · have h1 := ih _ (b + 1) (by rw [htl]; simp only [List.length_cons]; omega) i hi
        rw [htl] at h1
        simp only [List.length_cons] at h1 ⊢
        omega
      · rcases List.mem_cons.mp hi with hi | hi
        · subst hi
          omega
        · have h2 := ih _ (b + 1 + (x :: xs).length / 2)
            (by rw [hdl]; omega) i hi
          rw [hdl] at h2
          simp only [List.length_cons] at h2 ⊢
          omega

theorem buildIT_nodup [Inhabited α] :
    ∀ (n : Nat) (l : List α) (b : Nat), l.length ≤ n →
      (buildIT l b).idxList.Nodup := by
  intro n
  induction n with
  | zero =>
    intro l b hl
    rw [List.length_eq_zero.mp (Nat.le_zero.mp hl), buildIT]
    simp [ITree.idxList]
  | succ n ih =>
    intro l b hl
    match l with
    | [] =>
      rw [buildIT]
      simp [ITree.idxList]
    | x :: xs =>
      rw [buildIT_cons, ITree.idxList]
      simp only [List.length_cons] at hl
      have htl : ((x :: xs).take ((x :: xs).length / 2)).length
          = (x :: xs).length / 2 := by
        simp only [List.length_take, List.length_cons]
        omega
      have hkn : ((x :: xs).take ((x :: xs).length / 2)).length ≤ n := by
        rw [htl]
        simp only [List.length_cons]
        omega
      have hdn : ((x :: xs).drop ((x :: xs).length / 2 + 1)).length ≤ n := by
        simp only [List.length_drop, List.length_cons]
        omega
      refine List.Nodup.append (ih _ (b + 1) hkn) ?_ ?_
      · refine List.nodup_cons.mpr ⟨?_, ih _ (b + 1 + (x :: xs).length / 2) hdn⟩
        intro hc
        have h2 := (buildIT_idx n _ _ hdn b hc).1
        omega
      · intro a ha hb
        have h1 := buildIT_idx n _ _ hkn a ha
        rw [htl] at h1
        rcases List.mem_cons.mp hb with hb | hb
        · omega
        · have h2 := (buildIT_idx n _ _ hdn a hb).1
          omega

theorem buildIT_st [LinearOrder α] [Inhabited α] :
    ∀ (n : Nat) (l : List α) (b : Nat), l.length ≤ n →
      l.Sorted (· < ·) → ST (buildIT l b) := by
  intro n
  induction n with
  | zero =>
    intro l b hl _
    rw [List.length_eq_zero.mp (Nat.le_zero.mp hl), buildIT]
    exact ST.leaf
  | succ n ih =>
    intro l b hl hs
    match l with
    | [] =>
      rw [buildIT]
      exact ST.leaf
    | x :: xs =>
      rw [buildIT_cons]
      simp only [List.length_cons] at hl
      have hsplit := list_midpoint_split x xs
      rw [← hsplit, List.Sorted, List.pairwise_append] at hs
      obtain ⟨hst, hrest, hcross⟩ := hs
      rw [List.pairwise_cons] at hrest
      obtain ⟨hg, hd⟩ := hrest
      have hkn : ((x :: xs).take ((x :: xs).length / 2)).length ≤ n := by
        simp only [List.length_take, List.length_cons]
        omega
      have hdn : ((x :: xs).drop ((x :: xs).length / 2 + 1)).length ≤ n := by
        simp only [List.length_drop, List.length_cons]
        omega
      refine ST.node (ih _ (b + 1) hkn hst) (ih _ _ hdn hd) ?_ ?_
      · intro y hy
        rw [buildIT_vals n _ _ hkn] at hy
        exact hcross y hy _ (List.mem_cons_self _ _)
      · intro y hy
        rw [buildIT_vals n _ _ hdn] at hy
        exact hg y hy

/-- The midpoint build produces height ⌈log₂(n+1)⌉ exactly. -/
theorem buildIT_height [Inhabited α] :
    ∀ (n : Nat) (l : List α) (b : Nat), l.length ≤ n →
      (buildIT l b).height = Nat.clog 2 (l.length + 1) := by
  intro n
  induction n with
  | zero =>
    intro l b hl
    rw [List.length_eq_zero.mp (Nat.le_zero.mp hl), buildIT]
    simp [ITree.height]
  | succ n ih =>
    intro l b hl
    match l with
    | [] =>
      rw [buildIT]
      simp [ITree.height]
    | x :: xs =>
      rw [buildIT_cons, ITree.height]
      simp only [List.length_cons] at hl
      have htl : ((x :: xs).take ((x :: xs).length / 2)).length
          = (x :: xs).length / 2 := by
        simp only [List.length_take, List.length_cons]
        omega
      have hdl : ((x :: xs).drop ((x :: xs).length / 2 + 1)).length
          = xs.length - (x :: xs).length / 2 := by
        simp only [List.length_drop, List.length_cons]
        omega
      have hkn : ((x :: xs).take ((x :: xs).length / 2)).length ≤ n := by
        rw [htl]
        simp only [List.length_cons]
        omega
      have hdn : ((x :: xs).drop ((x :: xs).length / 2 + 1)).length ≤ n := by
        rw [hdl]
        omega
      rw [ih _ (b + 1) hkn, ih _ (b + 1 + (x :: xs).length / 2) hdn, htl, hdl]
      simp only [List.length_cons]
      have hmax : Nat.clog 2 (xs.length - (xs.length + 1) / 2 + 1)
          ≤ Nat.clog 2 ((xs.length + 1) / 2 + 1) := by
        apply Nat.clog_mono_right
        omega
      rw [Nat.max_eq_left hmax]
      rw [Nat.clog_of_two_le (n := xs.length + 1 + 1) (by norm_num) (by omega)]
      have harg : (xs.length + 1 + 1 + 2 - 1) / 2 = (xs.length + 1) / 2 + 1 := by
        omega
      rw [harg]

/-- Any binary tree of height h has fewer than 2^h nodes. -/
theorem size_lt_two_pow_height (t : ITree α) : t.size < 2 ^ t.height := by
  induction t with
  | leaf => simp [ITree.size, ITree.height]
  | node l i v r ihl ihr =>
    rw [ITree.size, ITree.height]
    have h1 : 2 ^ l.height ≤ 2 ^ max l.height r.height :=
      Nat.pow_le_pow_right (by norm_num) (le_max_left _ _)
    have h2 : 2 ^ r.height ≤ 2 ^ max l.height r.height :=
      Nat.pow_le_pow_right (by norm_num) (le_max_right _ _)
    have h3 : 2 ^ (max l.height r.height + 1)
        = 2 ^ max l.height r.height + 2 ^ max l.height r.height := by
      rw [Nat.pow_succ]
      omega
    omega

/-- Models is stable under arena changes that leave the described slots
untouched. -/
theorem models_mono [Inhabited α] {ls ls' : List (Slot α)} {oi : Option Nat}
    {t : ITree α} (hm : Models ls oi t) (hlen : ls.length ≤ ls'.length)
    (hag : ∀ j, j < ls.length → slotAt ls' j = slotAt ls j) :
    Models ls' oi t := by
  induction hm with
  | leaf => exact Models.leaf
  | node hi halive hval hml hmr ihl ihr =>
    rename_i i v l r
    refine Models.node (by omega) ?_ ?_ ?_ ?_
    · rw [hag i hi]
      exact halive
    · rw [hag i hi]
      exact hval
    · rw [hag i hi]
      exact ihl
    · rw [hag i hi]
      exact ihr

/-- The recursive build appends exactly the segment's nodes in allocation
order (root, then left half, then right half) and spells out the midpoint
tree `buildIT`. -/
theorem build_seg_spec [Inhabited α] :
    ∀ (n : Nat) (l : List α) (s : bst α), l.length ≤ n →
      s.free_head = none → s.slots.length + l.length ≤ npos_raw →
      ∃ s', build_seg s l
          = .ok (s', if l.isEmpty then none else some s.slots.length)
        ∧ s'.slots.length = s.slots.length + l.length
        ∧ s'.free_head = none
        ∧ s'.root_idx = s.root_idx
        ∧ s'.alive_count = s.alive_count + l.length
        ∧ (∀ j, j < s.slots.length → slotAt s'.slots j = slotAt s.slots j)
        ∧ Models s'.slots (if l.isEmpty then none else some s.slots.length)
            (buildIT l s.slots.length)
        ∧ (∀ j, s.slots.length ≤ j → j < s'.slots.length →
            (slotAt s'.slots j).generation = 2) := by
  intro n
  induction n with
  | zero =>
    intro l s hl hfree hcap
    rw [List.length_eq_zero.mp (Nat.le_zero.mp hl)]
    refine ⟨s, ?_, by simp, hfree, rfl, by simp, fun j _ => rfl, ?_,
      fun j hj1 hj2 => absurd hj2 (by omega)⟩
    · rw [build_seg]
      simp
    · rw [buildIT]
      simp only [List.isEmpty_nil, if_pos]
      exact Models.leaf
  | succ n ih =>
    intro l s hl hfree hcap
    match l with
    | [] =>
      refine ⟨s, ?_, by simp, hfree, rfl, by simp, fun j _ => rfl, ?_,
        fun j hj1 hj2 => absurd hj2 (by omega)⟩
      · rw [build_seg]
        simp
      · rw [buildIT]
        simp only [List.isEmpty_nil, if_pos]
        exact Models.leaf
    | x :: xs =>
      simp only [List.length_cons] at hl hcap
      have hcapb : ¬ npos_raw ≤ s.slots.length := by omega
      have halloc : allocate_node s ((x :: xs).getD ((x :: xs).length / 2) x) true
          = .ok ({ s with
              slots := s.slots ++ [{ generation := 2, left := none, right := none, val := (x :: xs).getD ((x :: xs).length / 2) x }],
              alive_count := s.alive_count + 1 }, s.slots.length) := by
        unfold allocate_node
        rw [hfree, if_neg hcapb]
        rfl
      set s1 : bst α := { s with
        slots := s.slots ++ [{ generation := 2, left := none, right := none, val := (x :: xs).getD ((x :: xs).length / 2) x }],
        alive_count := s.alive_count + 1 } with hs1def
      have hs1len : s1.slots.length = s.slots.length + 1 := by
        rw [hs1def]
        simp
      have hs1free : s1.free_head = none := hfree
      obtain ⟨s2, heq2, hlen2, hfree2, hroot2, halive2, hag2, hm2, hgen2⟩ :=
        ih ((x :: xs).take ((x :: xs).length / 2)) s1
          (by simp only [List.length_take, List.length_cons]; omega)
          hs1free
          (by rw [hs1len]
              simp only [List.length_take, List.length_cons]
              omega)
      set li : Option Nat := if ((x :: xs).take ((x :: xs).length / 2)).isEmpty
        then none else some s1.slots.length with hlidef
      set yl : Slot α := { slotAt s2.slots s.slots.length with left := li }
        with hyl
      set s2' : bst α := { s2 with
        slots := s2.slots.set s.slots.length yl } with hs2x
      have htl : ((x :: xs).take ((x :: xs).length / 2)).length
          = (x :: xs).length / 2 := by
        simp only [List.length_take, List.length_cons]
        omega
      have hs2'len : s2'.slots.length
          = s.slots.length + 1 + (x :: xs).length / 2 := by
        rw [hs2x]
        dsimp only
        rw [List.length_set, hlen2, hs1len, htl]
      have hs2'free : s2'.free_head = none := hfree2
      obtain ⟨s3, heq3, hlen3, hfree3, hroot3, halive3, hag3, hm3, hgen3⟩ :=
        ih ((x :: xs).drop ((x :: xs).length / 2 + 1)) s2'
          (by simp only [List.length_drop, List.length_cons]; omega)
          hs2'free
          (by rw [hs2'len]
              simp only [List.length_drop, List.length_cons]
              omega)
      set ri : Option Nat := if ((x :: xs).drop ((x :: xs).length / 2 + 1)).isEmpty
        then none else some s2'.slots.length with hridef
      set yr : Slot α := { slotAt s3.slots s.slots.length with right := ri }
        with hyr
      set sF : bst α := { s3 with
        slots := s3.slots.set s.slots.length yr } with hsF
      have hdl : ((x :: xs).drop ((x :: xs).length / 2 + 1)).length
          = xs.length - (x :: xs).length / 2 := by
        simp only [List.length_drop, List.length_cons]
        omega
      have hsFlen : sF.slots.length = s.slots.length + (xs.length + 1) := by
        rw [hsF]
        dsimp only
        rw [List.length_set, hlen3, hs2'len, hdl]
        simp only [List.length_cons]
        omega
      have hbase3 : s.slots.length < s3.slots.length := by
        rw [hlen3, hs2'len]
        omega
      have hbase2 : s.slots.length < s2.slots.length := by
        rw [hlen2, hs1len]
        omega
      have hrootslot : slotAt sF.slots s.slots.length
          = { generation := 2, left := li, right := ri,
              val := (x :: xs).getD ((x :: xs).length / 2) x } := by
        rw [hsF]
        dsimp only
        rw [slotAt_set_eq _ _ _ hbase3, hyr,
          hag3 _ (by rw [hs2'len]; omega), hs2x]
        dsimp only
        rw [slotAt_set_eq _ _ _ hbase2, hyl,
          hag2 _ (by rw [hs1len]; omega), hs1def]
        dsimp only
        rw [slotAt_append_self]
      have hnotin_l : s.slots.length
          ∉ (buildIT ((x :: xs).take ((x :: xs).length / 2))
              (s.slots.length + 1)).idxList := by
        intro hc
        have := (buildIT_idx _ _ _ (le_refl _) _ hc).1
        omega
      have hnotin_r : s.slots.length
          ∉ (buildIT ((x :: xs).drop ((x :: xs).length / 2 + 1))
              (s.slots.length + 1 + (x :: xs).length / 2)).idxList := by
        intro hc
        have := (buildIT_idx _ _ _ (le_refl _) _ hc).1
        omega
      have hsFs3 : sF.slots.length = s3.slots.length := by
        rw [hsF]
        dsimp only
        rw [List.length_set]
      have hs2eq : s2'.slots.length = s2.slots.length := by
        rw [hs2x]
        dsimp only
        rw [List.length_set]
      refine ⟨sF, ?_, ?_, hfree3, ?_, ?_, ?_, ?_, ?_⟩
      · rw [build_seg]
        rw [halloc]
        dsimp only
        rw [heq2]
        dsimp only
        rw [← hyl, ← hs2x, heq3]
        dsimp only
        rw [← hyr, ← hsF]
        rfl
      · rw [hsFlen]
        simp
      · simp only [hsF, hroot3, hs2x, hroot2, hs1def]
      · simp only [hsF, halive3, hs2x, halive2, hs1def, htl, hdl]
        simp only [List.length_cons]
        omega
      · intro j hj
        rw [hsF]
        dsimp only
        rw [slotAt_set_ne _ _ _ _ (by omega)]
        rw [hag3 j (by rw [hs2'len]; omega), hs2x]
        dsimp only
        rw [slotAt_set_ne _ _ _ _ (by omega)]
        rw [hag2 j (by rw [hs1len]; omega), hs1def]
        dsimp only
        exact slotAt_append_left _ _ _ hj
      · simp only [List.isEmpty_cons, Bool.false_eq_true, if_false]
        rw [buildIT_cons]
        refine Models.node (by rw [hsFlen]; omega) ?_ ?_ ?_ ?_
        · rw [hrootslot]
          simp [Slot.is_alive]
        · rw [hrootslot]
        · rw [hrootslot]
          show Models sF.slots li _
          rw [hs1len] at hm2
          have hm2a : Models s2'.slots li
              (buildIT ((x :: xs).take ((x :: xs).length / 2))
                (s.slots.length + 1)) := by
            rw [hs2x]
            exact models_set_outside hm2 _ _ hnotin_l
          have hm2b := models_mono hm2a
            (by rw [hlen3]; omega)
            (fun j hj => hag3 j hj)
          rw [hsF]
          exact models_set_outside hm2b _ _ hnotin_l
        · rw [hrootslot]
          show Models sF.slots ri _
          rw [hs2'len] at hm3
          rw [hsF]
          exact models_set_outside hm3 _ _ hnotin_r
      · intro j hj1 hj2
        rcases Nat.lt_or_ge j (s.slots.length + 1) with hj | hj
        · have hjb : j = s.slots.length := by omega
          subst hjb
          rw [hrootslot]
        · rw [hsF]
          dsimp only
          rw [slotAt_set_ne _ _ _ _ (by omega)]
          rcases Nat.lt_or_ge j s2'.slots.length with hj' | hj'
          · rw [hag3 j hj', hs2x]
            dsimp only
            rw [slotAt_set_ne _ _ _ _ (by omega)]
            exact hgen2 j (by rw [hs1len]; omega) (by omega)
          · exact hgen3 j hj' (by omega)

/-- C8 counterexample: building from the sorted pair [1, 2] the midpoint goes
to the root and the single remaining element goes to the LEFT subtree: the
left half has one element and the right half none, so the left half is one
longer - not "one shorter than or equal to" - the right half. -/
theorem C8_counterexample :
    ∃ s, build_from_sorted_unique_into_empty (empty_bst : bst Int) [1, 2] = .ok s
      ∧ Models s.slots s.root_idx (.node (.node .leaf 1 1 .leaf) 0 2 .leaf)
      ∧ (ITree.node .leaf 1 (1 : Int) .leaf).size = 1
      ∧ (ITree.leaf : ITree Int).size = 0
      ∧ ¬ (([1, 2] : List Int).take (([1, 2] : List Int).length / 2)).length
          ≤ (([1, 2] : List Int).drop (([1, 2] : List Int).length / 2 + 1)).length := by
  obtain ⟨s', heq, hlen', hfree', hroot', halive', hag', hm', hgen'⟩ :=
    build_seg_spec 2 [1, 2] (empty_bst : bst Int) (by decide) rfl (by decide)
  have hb : buildIT ([1, 2] : List Int) 0 = .node (.node .leaf 1 1 .leaf) 0 2 .leaf := by
    rw [buildIT_cons]
    norm_num
    rw [buildIT_cons]
    norm_num
    simp [buildIT]
  refine ⟨{ s' with root_idx := some 0 }, ?_, ?_, by decide, by decide, by decide⟩
  · unfold build_from_sorted_unique_into_empty
    dsimp only
    rw [heq]
    rfl
  · simp only [empty_bst, List.length_nil] at hm'
    rw [hb] at hm'
    exact hm'

/-- C8 (amended): for every input sequence within capacity,
build_from_sorted_unique recursively partitions the segment at the exact
midpoint lo + size/2, allocates the midpoint element as the subtree root,
recurses on [lo, mid) as the left subtree and (mid, hi) as the right
subtree, and yields the deterministic minimal-height shape; for an uneven
split the LEFT half is one LONGER than (otherwise equal to) the right
half. -/
theorem C8_build_midpoint [Inhabited α] (l : List α) (hcap : l.length ≤ npos_raw) :
    ∃ s, build_from_sorted_unique_into_empty (empty_bst : bst α) l = .ok s
      ∧ Models s.slots s.root_idx (buildIT l 0)
      ∧ (buildIT l 0).valsList = l
      ∧ (∀ x xs, l = x :: xs →
          buildIT l 0 = .node (buildIT (l.take (l.length / 2)) 1) 0
            (l.getD (l.length / 2) x)
            (buildIT (l.drop (l.length / 2 + 1)) (1 + l.length / 2)))
      ∧ ((l.take (l.length / 2)).length = (l.drop (l.length / 2 + 1)).length
        ∨ (l.take (l.length / 2)).length = (l.drop (l.length / 2 + 1)).length + 1)
      ∧ (∀ t' : ITree α, t'.size = l.length → (buildIT l 0).height ≤ t'.height) := by
  have hvals := buildIT_vals l.length l 0 (le_refl _)
  have hmin : ∀ t' : ITree α, t'.size = l.length → (buildIT l 0).height ≤ t'.height := by
    intro t' ht'
    rw [buildIT_height l.length l 0 (le_refl _)]
    rw [← Nat.le_pow_iff_clog_le (by norm_num)]
    have := size_lt_two_pow_height t'
    omega
  have hhalves : (l.take (l.length / 2)).length = (l.drop (l.length / 2 + 1)).length
      ∨ (l.take (l.length / 2)).length = (l.drop (l.length / 2 + 1)).length + 1 := by
    simp only [List.length_take, List.length_drop]
    omega
  match l with
  | [] =>
    refine ⟨{ (empty_bst : bst α) with root_idx := none }, rfl, ?_, hvals, ?_,
      hhalves, hmin⟩
    · rw [buildIT]
      exact Models.leaf
    · intro x xs h
      exact absurd h (by simp)
  | x :: xs =>
    obtain ⟨s', heq, hlen', hfree', hroot', halive', hag', hm', hgen'⟩ :=
      build_seg_spec (x :: xs).length (x :: xs) (empty_bst : bst α) (le_refl _)
        rfl (by simpa [empty_bst] using hcap)
    refine ⟨{ s' with root_idx := some 0 }, ?_, ?_, hvals, ?_, hhalves, hmin⟩
    · unfold build_from_sorted_unique_into_empty
      dsimp only
      rw [heq]
      rfl
    · simp only [empty_bst, List.length_nil] at hm'
      exact hm'
    · intro x' xs' h
      injection h with h1 h2
      subst h1
      subst h2
      exact buildIT_cons x xs 0

/-- Witness for C8 at the concrete input [1, 2, 3]. -/
theorem C8_witness :
    ([1, 2, 3] : List Int).length ≤ npos_raw ∧
    ∃ s, build_from_sorted_unique_into_empty (empty_bst : bst Int) [1, 2, 3] = .ok s
      ∧ Models s.slots s.root_idx (buildIT [1, 2, 3] 0)
      ∧ (buildIT ([1, 2, 3] : List Int) 0).valsList = [1, 2, 3]
      ∧ (∀ x xs, ([1, 2, 3] : List Int) = x :: xs →
          buildIT ([1, 2, 3] : List Int) 0
            = .node (buildIT (([1, 2, 3] : List Int).take (([1, 2, 3] : List Int).length / 2)) 1) 0
              (([1, 2, 3] : List Int).getD (([1, 2, 3] : List Int).length / 2) x)
              (buildIT (([1, 2, 3] : List Int).drop (([1, 2, 3] : List Int).length / 2 + 1))
                (1 + ([1, 2, 3] : List Int).length / 2)))
      ∧ ((([1, 2, 3] : List Int).take (([1, 2, 3] : List Int).length / 2)).length
            = (([1, 2, 3] : List Int).drop (([1, 2, 3] : List Int).length / 2 + 1)).length
        ∨ (([1, 2, 3] : List Int).take (([1, 2, 3] : List Int).length / 2)).length
            = (([1, 2, 3] : List Int).drop (([1, 2, 3] : List Int).length / 2 + 1)).length + 1)
      ∧ (∀ t' : ITree Int, t'.size = ([1, 2, 3] : List Int).length →
          (buildIT ([1, 2, 3] : List Int) 0).height ≤ t'.height) :=
  ⟨by decide, C8_build_midpoint [1, 2, 3] (by decide)⟩

theorem preorder_loop_nil [Inhabited α] (ls : List (Slot α)) :
    ∀ (fuel : Nat) (acc : List α), preorder_loop ls fuel [] acc = some acc := by
  intro fuel acc
  cases fuel <;> rfl

theorem preorder_loop_step [Inhabited α] (ls : List (Slot α)) (fuel i : Nat)
    (stack : List Nat) (acc : List α) :
    preorder_loop ls (fuel + 1) (i :: stack) acc
      = preorder_loop ls fuel
          ((slotAt ls i).left.toList ++ ((slotAt ls i).right.toList ++ stack))
          (acc ++ [(slotAt ls i).val]) := by
  cases hl : (slotAt ls i).left <;> cases hr : (slotAt ls i).right <;>
    simp [preorder_loop, hl, hr]

theorem preorder_loop_spec [Inhabited α] {ls : List (Slot α)} {t : ITree α}
    {oi : Option Nat} (hm : Models ls oi t) :
    ∀ fuel stack acc, preorder_loop ls (t.size + fuel) (oi.toList ++ stack) acc
      = preorder_loop ls fuel stack (acc ++ t.preList) := by
  induction hm with
  | leaf =>
    intro fuel stack acc
    simp [ITree.size, ITree.preList]
  | @node i v l r hlt halive hval hml hmr ihl ihr =>
    intro fuel stack acc
    have harith : (ITree.node l i v r).size + fuel = l.size + (r.size + fuel) + 1 := by
      simp [ITree.size]
      omega
    rw [harith]
    show preorder_loop ls (l.size + (r.size + fuel) + 1) (i :: stack) acc = _
    rw [preorder_loop_step, hval, ihl, ihr]
    simp [ITree.preList]

/-- The wrapper fuel `length + 1` suffices for every modelled tree. -/
theorem preorder_of_models [Inhabited α] {s : bst α} {t : ITree α}
    (hm : Models s.slots s.root_idx t) (hnd : t.idxList.Nodup) :
    preorder s = some t.preList := by
  have hsize : t.size ≤ s.slots.length := models_size_le hm hnd
  unfold preorder
  cases hr : s.root_idx with
  | none =>
    rw [hr] at hm
    cases hm
    rfl
  | some r =>
    rw [hr] at hm
    have h1 : s.slots.length + 1 = t.size + (s.slots.length + 1 - t.size) := by
      omega
    have h2 := preorder_loop_spec hm (s.slots.length + 1 - t.size) [] []
    simp only [Option.toList, List.append_nil, List.nil_append] at h2
    show preorder_loop s.slots (s.slots.length + 1) [r] [] = some t.preList
    rw [h1, h2, preorder_loop_nil]

/-- C2 (amended): rebalance is a no-op below two live elements; otherwise it
rebuilds the inorder sequence into a fresh arena: size (alive count) and the
inorder value sequence are preserved, and the resulting shape is exactly the
deterministic minimal-height midpoint layout (observable in the preorder
sequence). Handles are NOT reliably invalidated: the rebuilt arena reuses
raw indices starting at 0 with generation 2, so a previously issued handle
can test as valid again while referring to a different key (see the
counterexample). -/
theorem C2_rebalance [LinearOrder α] [Inhabited α] (s : bst α) (t : ITree α)
    (hm : Models s.slots s.root_idx t) (hst : ST t) (hnd : t.idxList.Nodup)
    (halive : s.alive_count = t.size) (hcap : t.size ≤ npos_raw) :
    (s.alive_count < 2 → rebalance s = some s)
    ∧ (2 ≤ s.alive_count → ∃ s', rebalance s = some s'
        ∧ s'.alive_count = s.alive_count
        ∧ inorder s = some t.valsList
        ∧ inorder s' = some t.valsList
        ∧ preorder s' = some (buildIT t.valsList 0).preList
        ∧ Models s'.slots s'.root_idx (buildIT t.valsList 0)
        ∧ (∀ t'' : ITree α, t''.size = t.size →
            (buildIT t.valsList 0).height ≤ t''.height)) := by
  have hvlen : t.valsList.length = t.size := ITree.valsList_length t
  constructor
  · intro hlt
    unfold rebalance
    rw [if_pos hlt]
  · intro hge
    have hio : inorder s = some t.valsList := inorder_of_models hm hnd
    obtain ⟨s', heq, hlen', hfree', hroot', halive', hag', hm', hgen'⟩ :=
      build_seg_spec t.valsList.length t.valsList (empty_bst : bst α)
        (le_refl _) rfl (by simpa [empty_bst, hvlen] using hcap)
    simp only [empty_bst, List.length_nil] at hm'
    match hv : t.valsList with
    | [] =>
      rw [hv, List.length_nil] at hvlen
      omega
    | x :: xs =>
      rw [hv] at hio heq hm' halive' hlen'
      have hbuild : build_from_sorted_unique_into_empty (empty_bst : bst α)
          (x :: xs) = .ok { s' with root_idx := some 0 } := by
        unfold build_from_sorted_unique_into_empty
        dsimp only
        rw [heq]
        rfl
      have hreb : rebalance s = some { s' with root_idx := some 0 } := by
        unfold rebalance
        rw [if_neg (by omega), hio]
        dsimp only
        rw [hbuild]
      have hmB : Models ({ s' with root_idx := some 0 } : bst α).slots
          ({ s' with root_idx := some 0 } : bst α).root_idx
          (buildIT (x :: xs) 0) := hm'
      have hndB : (buildIT ((x :: xs) : List α) 0).idxList.Nodup :=
        buildIT_nodup (x :: xs).length _ _ (le_refl _)
      refine ⟨{ s' with root_idx := some 0 }, hreb, ?_, hio, ?_, ?_, hmB, ?_⟩
      · show s'.alive_count = s.alive_count
        rw [halive']
        simp only [empty_bst, List.length_cons]
        rw [halive, ← hvlen, hv]
        simp
      · rw [inorder_of_models hmB hndB,
          buildIT_vals (x :: xs).length _ _ (le_refl _)]
      · rw [preorder_of_models hmB hndB]
      · intro t'' ht''
        rw [buildIT_height (x :: xs).length _ 0 (le_refl _)]
        rw [← Nat.le_pow_iff_clog_le (by norm_num)]
        have hsz := size_lt_two_pow_height t''
        rw [ht''] at hsz
        have : t.size = (x :: xs).length := by rw [← hvlen, hv]
        omega

/-- C2 counterexample: the handle issued when key 1 was first inserted
(raw index 0, generation 2) still tests as VALID after a rebalance of the
tree {1, 2, 3}, and now refers to the slot holding key 2: rebalance does not
invalidate every previously issued handle. -/
theorem C2_counterexample :
    ∃ s1 h, insert_impl (empty_bst : bst Int) 1 = some (.ok (s1, h, true))
      ∧ ∃ s3, insertList s1 [2, 3] = some s3
      ∧ ∃ s4, rebalance s3 = some s4
        ∧ is_handle_valid s4 h = true
        ∧ (slotAt s4.slots (unpack_index h)).val = 2 := by
  refine ⟨c2s1, 2097152, by decide, c2s3, by decide, ?_⟩
  obtain ⟨s', heq, hlen', hfree', hroot', halive', hag', hm', hgen'⟩ :=
    build_seg_spec 3 [1, 2, 3] (empty_bst : bst Int) (by decide) rfl (by decide)
  simp only [empty_bst, List.length_nil] at hm'
  have hb3 : buildIT ([1, 2, 3] : List Int) 0
      = .node (.node .leaf 1 1 .leaf) 0 2 (.node .leaf 2 3 .leaf) := by
    rw [buildIT_cons]
    norm_num
    constructor
    · rw [buildIT_cons]
      norm_num
      simp [buildIT]
    · rw [buildIT_cons]
      norm_num
      simp [buildIT]
  rw [hb3] at hm'
  have hbuild : build_from_sorted_unique_into_empty (empty_bst : bst Int) [1, 2, 3]
      = .ok { s' with root_idx := some 0 } := by
    unfold build_from_sorted_unique_into_empty
    dsimp only
    rw [heq]
    rfl
  have hreb : rebalance c2s3 = some { s' with root_idx := some 0 } := by
    unfold rebalance
    rw [if_neg (by decide)]
    have hio : inorder c2s3 = some [1, 2, 3] := by decide
    rw [hio]
    dsimp only
    rw [hbuild]
  have hui : unpack_index 2097152 = 0 := by decide
  have hug : unpack_gen 2097152 = 2 := by decide
  have hg0 : (slotAt s'.slots 0).generation = 2 :=
    hgen' 0 (by decide) (by rw [hlen']; decide)
  refine ⟨{ s' with root_idx := some 0 }, hreb, ?_, ?_⟩
  · unfold is_handle_valid
    rw [if_neg (by decide)]
    dsimp only
    rw [hui, hug]
    have hlen3 : s'.slots.length = 3 := by
      rw [hlen']
      decide
    rw [hlen3, if_neg (show ¬ ((3:Nat) ≤ 0) by decide)]
    rw [hg0]
    simp [Slot.is_alive, hg0]
  · cases hm' with
    | node hlt ha hv hl hr =>
      rw [hui]
      exact hv

/-- Witness for C2 at the concrete two-element tree `c2sW` (root 2, left
child 1). -/
theorem C2_witness :
    (c2sW.alive_count < 2 → rebalance c2sW = some c2sW)
    ∧ (2 ≤ c2sW.alive_count → ∃ s', rebalance c2sW = some s'
        ∧ s'.alive_count = c2sW.alive_count
        ∧ inorder c2sW = some c2tW.valsList
        ∧ inorder s' = some c2tW.valsList
        ∧ preorder s' = some (buildIT c2tW.valsList 0).preList
        ∧ Models s'.slots s'.root_idx (buildIT c2tW.valsList 0)
        ∧ (∀ t'' : ITree Int, t''.size = c2tW.size →
            (buildIT c2tW.valsList 0).height ≤ t''.height)) :=
  C2_rebalance c2sW c2tW
    (Models.node (by decide) (by decide) rfl
      (Models.node (by decide) (by decide) rfl Models.leaf Models.leaf)
      Models.leaf)
    (ST.node
      (ST.node ST.leaf ST.leaf (fun x hx => by simp [ITree.valsList] at hx)
        (fun x hx => by simp [ITree.valsList] at hx))
      ST.leaf
      (fun x hx => by simp [c2tW, ITree.valsList] at hx; omega)
      (fun x hx => by simp [ITree.valsList] at hx))
    (by decide) (by decide) (by decide)

/-- The inorder index sequence carries exactly the inorder values through the
arena. -/
theorem models_idx_vals [Inhabited α] {ls : List (Slot α)} {oi : Option Nat}
    {t : ITree α} (hm : Models ls oi t) :
    t.idxList.map (fun i => (slotAt ls i).val) = t.valsList := by
  induction hm with
  | leaf => rfl
  | @node i v l r hlt halive hval hml hmr ihl ihr =>
    simp [ITree.idxList, ITree.valsList, ihl, ihr, hval]

theorem lower_bound_loop_spec [LinearOrder α] [Inhabited α] {ls : List (Slot α)}
    {t : ITree α} {oi : Option Nat} (hm : Models ls oi t) (key : α) :
    ∀ fuel best, t.size ≤ fuel →
      lower_bound_loop ls key fuel best oi = some (t.lb key best) := by
  induction hm with
  | leaf =>
    intro fuel best _
    cases fuel <;> rfl
  | @node i v l r hlt halive hval hml hmr ihl ihr =>
    intro fuel best hfuel
    rw [ITree.size] at hfuel
    match fuel with
    | 0 => omega
    | f + 1 =>
      show lower_bound_loop ls key (f + 1) best (some i)
        = some ((ITree.node l i v r).lb key best)
      simp only [lower_bound_loop, ITree.lb, hval]
      by_cases hv : v < key
      · rw [if_pos hv, if_pos hv]
        exact ihr f best (by omega)
      · rw [if_neg hv, if_neg hv]
        exact ihl f (some i) (by omega)

/-- Under the search-tree invariant, the descent lands on the leftmost
(inorder-first) node whose value is not less than the key. -/
theorem lb_find [LinearOrder α] [Inhabited α] {ls : List (Slot α)} (key : α) :
    ∀ (t : ITree α) (oi : Option Nat), Models ls oi t → ST t → ∀ best,
      t.lb key best
        = match t.idxList.find? (fun i => !decide ((slotAt ls i).val < key)) with
          | none => best
          | some j => some j := by
  intro t
  induction t with
  | leaf =>
    intro oi hm hst best
    simp [ITree.lb, ITree.idxList]
  | node l i0 v r ihl ihr =>
    intro oi hm hst best
    cases hm with
    | node hlt halive hval hml hmr =>
      cases hst with
      | node hstl hstr hbl hbr =>
        rw [ITree.lb, ITree.idxList, List.find?_append]
        by_cases hv : v < key
        · rw [if_pos hv]
          have hnone : l.idxList.find?
              (fun j => !decide ((slotAt ls j).val < key)) = none := by
            rw [List.find?_eq_none]
            intro j hj
            have hvin : (slotAt ls j).val ∈ l.valsList := by
              rw [← models_idx_vals hml]
              exact List.mem_map_of_mem _ hj
            have hlt' := hbl _ hvin
            simp only [Bool.not_eq_true', decide_eq_true_eq, Bool.not_not,
              decide_eq_false_iff_not, not_not, Bool.not_eq_false]
            exact lt_trans hlt' hv
          rw [hnone, Option.none_or,
            List.find?_cons_of_neg _ (by simp [hval, hv])]
          exact ihr _ hmr hstr best
        · rw [if_neg hv, ihl _ hml hstl (some i0),
            List.find?_cons_of_pos _ (by simp [hval, hv])]
          cases hf : l.idxList.find? (fun j => !decide ((slotAt ls j).val < key)) with
          | none => simp
          | some j => simp

/-- C9 (spec-modelled: lower_bound is absent from src/, only test.cpp calls
lower_bound_handle; modelled from spec §4.2): lower_bound(key) returns the
handle of the leftmost (inorder-first) alive node whose value is
not-less-than the key under the ordering relation, or the sentinel npos if
no such node exists. -/
theorem C9_lower_bound [LinearOrder α] [Inhabited α] (s : bst α) (key : α)
    (t : ITree α) (hm : Models s.slots s.root_idx t) (hst : ST t)
    (hnd : t.idxList.Nodup) :
    lower_bound_handle s key
      = some (match t.idxList.find?
            (fun i => !decide ((slotAt s.slots i).val < key)) with
          | none => npos
          | some j => make_handle s j) := by
  unfold lower_bound_handle
  have hsize : t.size ≤ s.slots.length := models_size_le hm hnd
  rw [lower_bound_loop_spec hm key (s.slots.length + 1) none (by omega)]
  rw [lb_find key t s.root_idx hm hst none]
  cases hf : t.idxList.find? (fun i => !decide ((slotAt s.slots i).val < key)) with
  | none => simp
  | some j => simp

/-- Witness for C9 on the concrete two-element tree (root 2, left child 1)
at key 2: the leftmost not-less-than node is the root. -/
theorem C9_witness :
    lower_bound_handle c2sW (2 : Int)
      = some (match c2tW.idxList.find?
            (fun i => !decide ((slotAt c2sW.slots i).val < 2)) with
          | none => npos
          | some j => make_handle c2sW j) :=
  C9_lower_bound c2sW 2 c2tW
    (Models.node (by decide) (by decide) rfl
      (Models.node (by decide) (by decide) rfl Models.leaf Models.leaf)
      Models.leaf)
    (ST.node
      (ST.node ST.leaf ST.leaf (fun x hx => by simp [ITree.valsList] at hx)
        (fun x hx => by simp [ITree.valsList] at hx))
      ST.leaf
      (fun x hx => by simp [c2tW, ITree.valsList] at hx; omega)
      (fun x hx => by simp [ITree.valsList] at hx))
    (by decide)

theorem push_left_loop_spec [Inhabited α] {ls : List (Slot α)} {t : ITree α}
    {oi : Option Nat} (hm : Models ls oi t) :
    ∀ fuel st, t.size ≤ fuel →
      push_left_loop ls fuel oi st = some (t.lspine st) := by
  induction hm with
  | leaf =>
    intro fuel st _
    cases fuel <;> rfl
  | @node i v l r hlt halive hval hml hmr ihl ihr =>
    intro fuel st hfuel
    rw [ITree.size] at hfuel
    match fuel with
    | 0 => omega
    | f + 1 =>
      show push_left_loop ls (f + 1) (some i) st = some ((ITree.node l i v r).lspine st)
      rw [push_left_loop, ITree.lspine]
      exact ihl f (i :: st) (by omega)

/-- A nonempty modelled tree's left spine starts with the node holding the
first inorder value. -/
theorem models_lspine_head [Inhabited α] {ls : List (Slot α)} {t : ITree α}
    {oi : Option Nat} (hm : Models ls oi t) :
    ∀ st, t = .leaf ∨ ∃ i rest, t.lspine st = i :: rest
      ∧ some ((slotAt ls i).val) = t.valsList.head? := by
  induction hm with
  | leaf =>
    intro st
    exact .inl rfl
  | @node i v l r hlt halive hval hml hmr ihl ihr =>
    intro st
    refine .inr ?_
    rcases ihl (i :: st) with hleaf | ⟨j, rest, hsp, hhead⟩
    · subst hleaf
      refine ⟨i, st, rfl, ?_⟩
      rw [hval]
      simp [ITree.valsList]
    · refine ⟨j, rest, ?_, ?_⟩
      · rw [ITree.lspine]
        exact hsp
      · rw [ITree.valsList]
        rw [List.head?_append]
        rw [← hhead]
        rfl

/-- C10: begin_inorder() equals end_inorder() exactly when the tree is
empty, and on a nonempty tree the iterator starts at the node holding the
least stored value under the ordering relation (the leftmost node, the head
of the inorder sequence). -/
theorem C10_begin_inorder [LinearOrder α] [Inhabited α] (s : bst α)
    (t : ITree α) (hm : Models s.slots s.root_idx t) (hst : ST t)
    (hnd : t.idxList.Nodup) (halive : s.alive_count = t.size) :
    ∃ itb, begin_inorder s = some itb
      ∧ (itb = end_inorder ↔ s.alive_count = 0)
      ∧ (∀ i, itb.cur_raw = some i →
          ∃ m, t.valsList.head? = some m ∧ (slotAt s.slots i).val = m
            ∧ ∀ x ∈ t.valsList, m ≤ x)
      ∧ (s.alive_count ≠ 0 → ∃ i, itb.cur_raw = some i) := by
  have hsize : t.size ≤ s.slots.length := models_size_le hm hnd
  cases t with
  | leaf =>
    have h0 : s.alive_count = 0 := by
      rw [halive]
      rfl
    refine ⟨end_inorder, ?_, by simp [h0], ?_, fun hne => absurd h0 hne⟩
    · unfold begin_inorder
      rw [if_pos (by simp [h0])]
      rfl
    · intro i hi
      simp [end_inorder] at hi
  | node l i0 v r =>
    have hne0 : s.alive_count ≠ 0 := by
      rw [halive, ITree.size]
      omega
    rcases models_lspine_head hm [] with hleaf | ⟨j, rest, hsp, hhead⟩
    · cases hleaf
    have hsorted := st_sorted hst
    obtain ⟨m, hm0⟩ : ∃ m, (ITree.node l i0 v r).valsList.head? = some m :=
      ⟨_, hhead.symm⟩
    have hmin : ∀ x ∈ (ITree.node l i0 v r).valsList, m ≤ x := by
      obtain ⟨tl, htl⟩ : ∃ tl, (ITree.node l i0 v r).valsList = m :: tl := by
        cases hv : (ITree.node l i0 v r).valsList with
        | nil => rw [hv] at hm0; cases hm0
        | cons a tl =>
          rw [hv] at hm0
          injection hm0 with h1
          exact ⟨tl, by rw [h1]⟩
      rw [htl] at hsorted ⊢
      intro x hx
      rcases List.mem_cons.mp hx with hx | hx
      · exact le_of_eq hx.symm
      · exact le_of_lt (List.rel_of_sorted_cons hsorted x hx)
    refine ⟨{ stack := rest, cur_raw := some j }, ?_, ?_, ?_, fun _ => ⟨j, rfl⟩⟩
    · unfold begin_inorder
      rw [if_neg (by simp [hne0])]
      rw [push_left_loop_spec hm (s.slots.length + 1) [] (by omega), hsp]
    · constructor
      · intro hcon
        have : (some j : Option Nat) = none := congrArg inorder_iter.cur_raw hcon
        cases this
      · intro hcon
        exact absurd hcon hne0
    · intro i hi
      injection hi with hij
      subst hij
      refine ⟨m, hm0, ?_, hmin⟩
      have := hhead.trans hm0
      injection this

/-- Witness for C10 on the concrete two-element tree (root 2, left child 1):
the begin iterator starts at the slot holding the minimum, 1. -/
theorem C10_witness :
    ∃ itb, begin_inorder c2sW = some itb
      ∧ (itb = end_inorder ↔ c2sW.alive_count = 0)
      ∧ (∀ i, itb.cur_raw = some i →
          ∃ m, c2tW.valsList.head? = some m ∧ (slotAt c2sW.slots i).val = m
            ∧ ∀ x ∈ c2tW.valsList, m ≤ x)
      ∧ (c2sW.alive_count ≠ 0 → ∃ i, itb.cur_raw = some i) :=
  C10_begin_inorder c2sW c2tW
    (Models.node (by decide) (by decide) rfl
      (Models.node (by decide) (by decide) rfl Models.leaf Models.leaf)
      Models.leaf)
    (ST.node
      (ST.node ST.leaf ST.leaf (fun x hx => by simp [ITree.valsList] at hx)
        (fun x hx => by simp [ITree.valsList] at hx))
      ST.leaf
      (fun x hx => by simp [c2tW, ITree.valsList] at hx; omega)
      (fun x hx => by simp [ITree.valsList] at hx))
    (by decide) (by decide)

end FlatBst
